import Mathlib

/-!
# Directory enumeration in `include/target/linux/pico/fs.cc`

A shallow embedding of `Pico::Filesystem::Directory::each` and
`Pico::Filesystem::Directory::list`, together with the `foreach_dirent` and
`dirent_name` macros they are written with.

The code talks to three collaborators: the system-call layer (`Syscall::open`,
`Syscall::getdents`, the close behind `Directory::close`), the byte arena
`Memory::Buffer`, and the caller's visitor `proc`.  All of them act on one
explicit world state `σ` that is threaded through the embedding, and every
interaction is appended to a trace of `Event`s, so that statements such as
"invoked exactly N times" or "freed exactly once" are statements about that
trace.  The two loops of `list` take fuel: `none` means that the fuel ran out
before the loop left.
-/

set_option maxRecDepth 1000000

namespace Pico
namespace Filesystem

/-- A byte of memory. -/
abbrev Byte := Nat

/-- What `fs.cc` uses from its target without declaring it: the constants
`PAGE_SIZE`, `O_RDONLY` and `O_DIRECTORY`, the two fields of
`struct linux_dirent` that the code reads (`d_reclen` and `d_name`, each as a
function of the memory contents and of the byte offset of the record in it),
and the contents of storage that `Memory::Buffer` has acquired but nobody has
written yet (`fresh i` is the byte found at index `i`). -/
structure Target where
  PAGE_SIZE : Nat
  O_RDONLY : Nat
  O_DIRECTORY : Nat
  d_reclen : List Byte → Nat → Nat
  d_name : List Byte → Nat → List Byte
  fresh : Nat → Byte

/-- The system-call layer over a world state `σ`.  `getdents w fd count`
answers with the returned `int` and the bytes the kernel has for the caller;
the first `ret` of them are stored at `dirents` when `ret` is positive. -/
structure Syscall (σ : Type) where
  open_ : σ → List Byte → Nat → Int × σ
  getdents : σ → Int → Nat → (Int × List Byte) × σ
  close : σ → Int → Int × σ

/-- The interactions of the code with its collaborators, in program order. -/
inductive Event where
  | sys_open (path : List Byte) (flags : Nat) (ret : Int)
  | buffer_new (size : Nat)
  | sys_getdents (fd : Int) (dirents : Nat) (count : Nat) (ret : Int)
  | buffer_resize (size : Nat)
  | proc (dirent : Nat) (name : List Byte) (ret : Int)
  | buffer_free
  | dir_close (fd : Int) (ret : Int)
deriving DecidableEq, Repr

/-- The outcome of a finished computation: its value, the world it leaves and
the events it caused. -/
structure Run (σ : Type) (α : Type) where
  val : α
  world : σ
  trace : List Event
deriving DecidableEq, Repr

/-- Modelled from the spec: `Memory::Buffer` is declared outside `fs.cc`.  It
is an owned byte arena with a capacity; `resize` preserves the existing bytes
up to the smaller of the old and the new size. -/
structure Buffer where
  bytes : List Byte
deriving DecidableEq, Repr

/-- Modelled from the spec: `Memory::Buffer::size` is declared outside `fs.cc`;
it is the current capacity. -/
def Buffer.size (b : Buffer) : Nat := b.bytes.length

/-- Modelled from the spec: the constructor `Memory::Buffer(size)` is declared
outside `fs.cc`; it acquires `size` bytes of fresh storage. -/
def Buffer.new (T : Target) (size : Nat) : Buffer :=
  ⟨(List.range size).map T.fresh⟩

/-- Modelled from the spec: `Memory::Buffer::resize` is declared outside
`fs.cc`; bytes below the smaller of the two sizes are kept, bytes gained are
fresh storage. -/
def Buffer.resize (T : Target) (b : Buffer) (size : Nat) : Buffer :=
  ⟨b.bytes.take size ++ (List.range' b.size (size - b.size)).map T.fresh⟩

/-- The store of `data` at byte offset `off` that `getdents` performs through
the pointer it is given.  The capacity does not change; a store is only
meaningful when it lies inside the buffer. -/
def Buffer.write (b : Buffer) (off : Nat) (data : List Byte) : Buffer :=
  ⟨(b.bytes.take off ++ data ++ b.bytes.drop (off + data.length)).take b.size⟩

/-- The result of the first half of `list`: either the early
`return ret` of a negative `getdents`, or the buffer and `read_size` with
which the `while` loop was left through `break`. -/
inductive Fetch where
  | failed (ret : Int)
  | filled (buffer : Buffer) (read_size : Nat)
deriving DecidableEq, Repr

/-- The `while ( true )` loop of `Directory::list` (source lines 170-185).
`dirents` always equals `buffer.pointer() + read_size`, so the kernel stores
at offset `read_size`; sizes are natural numbers (they stay far below the
range of `size_t`). -/
def list_fetch {σ : Type} (T : Target) (sys : Syscall σ) (fd : Int) :
    Nat → Buffer → Nat → σ → Option (Run σ Fetch)
  | 0, _, _, _ => none
  | fuel + 1, buffer, read_size, w =>
    let count := buffer.size - read_size
    let r := sys.getdents w fd count
    let ret := r.1.1
    let ev := Event.sys_getdents fd read_size count ret
    if ret = 0 then
      some ⟨Fetch.filled buffer read_size, r.2, [ev]⟩
    else if ret < 0 then
      some ⟨Fetch.failed ret, r.2, [ev, Event.buffer_free]⟩
    else
      let buffer1 := buffer.write read_size (r.1.2.take ret.toNat)
      let read_size1 := read_size + ret.toNat
      let buffer2 := buffer1.resize T (buffer1.size * 2)
      (list_fetch T sys fd fuel buffer2 read_size1 r.2).map fun k =>
        ⟨k.val, k.world, ev :: Event.buffer_resize (buffer1.size * 2) :: k.trace⟩

/-- How a loop body ends: by reaching its end (`next`) or through `break`. -/
inductive Flow (α : Type) where
  | next (a : α)
  | brk (a : α)

/-- The `dirent_name(dirent)` macro: `dirent->d_name`. -/
def dirent_name (T : Target) (mem : List Byte) (dirent : Nat) : List Byte :=
  T.d_name mem dirent

/-- The `foreach_dirent(dirents, dirent, off, dsize)` macro, with `dirents`
the start of `mem`: `off` starts at 0, the body runs while `off < dsize`, and
the step adds `dirent->d_reclen` to `off` and to `dirent` alike, so that
`dirent` is the record at byte offset `off` throughout (and is not null, being
an address inside the buffer). -/
def foreach_dirent {α : Type} (T : Target) (mem : List Byte) (dsize : Nat)
    (body : Nat → α → Flow α) : Nat → Nat → α → Option α
  | 0, _, _ => none
  | fuel + 1, off, a =>
    if off < dsize then
      match body off a with
      | Flow.brk a1 => some a1
      | Flow.next a1 =>
        foreach_dirent T mem dsize body fuel (off + T.d_reclen mem off) a1
    else some a

/-- The body of the `foreach_dirent` loop of `Directory::list` (source lines
194-198): `ret = proc(dirent_name(current)); if ( ret != 0 ) break;`. -/
def list_body {σ : Type} (T : Target) (proc : σ → List Byte → Int × σ)
    (mem : List Byte) (current : Nat) (a : Run σ Int) : Flow (Run σ Int) :=
  let name := dirent_name T mem current
  let r := proc a.world name
  let a1 : Run σ Int := ⟨r.1, r.2, a.trace ++ [Event.proc current name r.1]⟩
  if r.1 ≠ 0 then Flow.brk a1 else Flow.next a1

/-- The `Directory` object: it holds the descriptor `fd`. -/
structure Directory where
  fd : Int
deriving DecidableEq, Repr

/-- Modelled from the spec: `Directory::file_desc` is declared outside
`fs.cc`; it is the descriptor the handle holds. -/
def Directory.file_desc (dir : Directory) : Int := dir.fd

/-- Modelled from the spec: `Directory::close` is declared outside `fs.cc`;
it releases the descriptor through the gateway `close(fd) -> status`. -/
def Directory.close {σ : Type} (sys : Syscall σ) (dir : Directory) (w : σ) : Int × σ :=
  sys.close w dir.fd

/-- The constructor `Directory::Directory(const char *path)`. -/
def Directory.ctor {σ : Type} (T : Target) (sys : Syscall σ) (path : List Byte) (w : σ) :
    Directory × σ :=
  let r := sys.open_ w path (T.O_RDONLY ||| T.O_DIRECTORY)
  (⟨r.1⟩, r.2)

/-- The method `Directory::list(Func proc)`.  `uninit` is the value the local
`int ret;` of source line 191 holds before anything is assigned to it. -/
def Directory.list {σ : Type} (T : Target) (sys : Syscall σ)
    (proc : σ → List Byte → Int × σ) (dir : Directory) (uninit : Int) (fuel : Nat) (w : σ) :
    Option (Run σ Int) :=
  match list_fetch T sys dir.fd fuel (Buffer.new T T.PAGE_SIZE) 0 w with
  | none => none
  | some ⟨Fetch.failed ret, w1, tr⟩ => some ⟨ret, w1, Event.buffer_new T.PAGE_SIZE :: tr⟩
  | some ⟨Fetch.filled buffer read_size, w1, tr⟩ =>
    (foreach_dirent T buffer.bytes read_size (list_body T proc buffer.bytes) fuel 0
        ⟨uninit, w1, []⟩).map fun k =>
      ⟨k.val, k.world, Event.buffer_new T.PAGE_SIZE :: tr ++ k.trace ++ [Event.buffer_free]⟩

/-- The static method `Directory::each(const char *path, Func proc)`. -/
def Directory.each {σ : Type} (T : Target) (sys : Syscall σ)
    (proc : σ → List Byte → Int × σ) (path : List Byte) (uninit : Int) (fuel : Nat) (w : σ) :
    Option (Run σ Int) :=
  let d := Directory.ctor T sys path w
  let ev := Event.sys_open path (T.O_RDONLY ||| T.O_DIRECTORY) d.1.fd
  if d.1.file_desc < 0 then
    some ⟨d.1.file_desc, d.2, [ev]⟩
  else
    match d.1.list T sys proc uninit fuel d.2 with
    | none => none
    | some r =>
      let c := d.1.close sys r.world
      some ⟨r.val, c.2, ev :: r.trace ++ [Event.dir_close d.1.fd c.1]⟩

/-! ## A concrete target and a scripted gateway, for closed examples -/

/-- An instance of `Target` for the examples, with the `struct linux_dirent`
of Linux on x86-64, which `getdents` fills:
`unsigned long d_ino` at bytes 0-7, `unsigned long d_off` at bytes 8-15,
`unsigned short d_reclen` at bytes 16-17 (little endian) and the
null-terminated `char d_name[]` from byte 18 on.  The page size is left open so
that examples can run on small buffers. -/
def linux_x86_64 (page : Nat) : Target where
  PAGE_SIZE := page
  O_RDONLY := 0
  O_DIRECTORY := 0o200000
  d_reclen := fun mem dirent =>
    mem.getD (dirent + 16) 0 % 256 + 256 * (mem.getD (dirent + 17) 0 % 256)
  d_name := fun mem dirent => (mem.drop (dirent + 18)).takeWhile (fun b => b ≠ 0)
  fresh := fun _ => 0

/-- The bytes of a string. -/
def cstr (s : String) : List Byte := s.toList.map Char.toNat

/-- The bytes of one `struct linux_dirent` that declares `reclen` as its
length and carries `name`, with inode and offset fields zero and zero padding
after the name up to `reclen`, the record being at least the 18 header bytes
long. -/
def mk_dirent (reclen : Nat) (name : String) : List Byte :=
  let raw := List.replicate 16 0 ++ [reclen % 256, reclen / 256] ++ cstr name
  raw ++ List.replicate (reclen - raw.length) 0

/-- The world of the scripted gateway and of the example visitors: the
descriptor the next `open` yields, the answers the coming `getdents` calls
give, in order, and the number of visitor invocations counted so far. -/
structure Script where
  fd : Int
  reads : List (Int × List Byte)
  calls : Nat
deriving DecidableEq, Repr

/-- A gateway that plays a script: `open` yields the scripted descriptor,
`getdents` the next scripted answer (end of directory once the script is
used up), `close` succeeds. -/
def scripted : Syscall Script where
  open_ := fun w _ _ => (w.fd, w)
  getdents := fun w _ _ =>
    match w.reads with
    | [] => ((0, []), w)
    | r :: rest => (r, ⟨w.fd, rest, w.calls⟩)
  close := fun w _ => (0, w)

/-- A visitor without state of its own that answers `code` on the name `stop`
and 0 on every other name. -/
def stop_at (stop : List Byte) (code : Int) (w : Script) (name : List Byte) : Int × Script :=
  (if name = stop then code else 0, w)

/-- A visitor that always answers 0. -/
def keep_going (w : Script) (_name : List Byte) : Int × Script := (0, w)

/-- A visitor that counts its invocations: it answers 0 on the first `n` of
them and `code` from then on. -/
def stop_after (n : Nat) (code : Int) (w : Script) (_name : List Byte) : Int × Script :=
  (if w.calls < n then 0 else code, ⟨w.fd, w.reads, w.calls + 1⟩)

/-- The records of a directory with the entries `.`, `..`, `a.txt` and
`b.txt`: each is 24 bytes long. -/
def four_records : List (Nat × List Byte) :=
  [(24, cstr "."), (24, cstr ".."), (24, cstr "a.txt"), (24, cstr "b.txt")]

/-- The bytes of those four records, one after the other. -/
def four_dirents : List Byte :=
  mk_dirent 24 "." ++ mk_dirent 24 ".." ++ mk_dirent 24 "a.txt" ++ mk_dirent 24 "b.txt"

/-- A directory that opens as descriptor 3 and hands out the four records in
two reads of two records each. -/
def four_entries : Script :=
  ⟨3, [(48, four_dirents.take 48), (48, four_dirents.drop 48)], 0⟩

/-- A directory whose single read yields 48 bytes: a valid record `a` of 24
bytes, then a record `x` that declares the length 0. -/
def zero_length_entries : Script :=
  ⟨3, [(48, mk_dirent 24 "a" ++ mk_dirent 0 "x" ++ List.replicate 5 0)], 0⟩

/-- A directory whose single read yields 24 bytes that hold one record `x`
declaring the length 100. -/
def overlong_entries : Script :=
  ⟨3, [(24, (mk_dirent 100 "x").take 24)], 0⟩

/-- A directory that opens as descriptor 3 and whose second read fails with
the error code -5, after a first read of two records. -/
def failing_entries : Script :=
  ⟨3, [(48, four_dirents.take 48), (-5, [])], 0⟩

/-- A path that the scripted gateway fails to open, with the error code -2. -/
def missing_entries : Script :=
  ⟨-2, [(48, four_dirents.take 48)], 0⟩

/-! ## Vocabulary of the statements -/

/-- The records found in `mem` from byte offset `off` on, each starting where
the one before it ends: `rs` lists the declared length and the embedded name
of each. -/
def Records (T : Target) (mem : List Byte) : Nat → List (Nat × List Byte) → Prop
  | _, [] => True
  | off, r :: rs =>
    T.d_reclen mem off = r.1 ∧ dirent_name T mem off = r.2 ∧ Records T mem (off + r.1) rs

/-- Every record of `rs`, laid out from `off` on, starts below `dsize`. -/
def Starts (dsize : Nat) : Nat → List (Nat × List Byte) → Prop
  | _, [] => True
  | off, r :: rs => off < dsize ∧ Starts dsize (off + r.1) rs

/-- The total of the declared lengths. -/
def span (rs : List (Nat × List Byte)) : Nat := (rs.map Prod.fst).sum

/-- The visitor answers 0 on each of `names` in turn, starting in world `w`. -/
def Continues {σ : Type} (proc : σ → List Byte → Int × σ) : σ → List (List Byte) → Prop
  | _, [] => True
  | w, n :: ns => (proc w n).1 = 0 ∧ Continues proc (proc w n).2 ns

/-- The world after the visitor has been run on each of `names` in turn. -/
def after {σ : Type} (proc : σ → List Byte → Int × σ) : σ → List (List Byte) → σ
  | w, [] => w
  | w, n :: ns => after proc (proc w n).2 ns

/-- The events of visiting the records `rs` laid out from `off` on, the
visitor answering 0 each time. -/
def visits : Nat → List (Nat × List Byte) → List Event
  | _, [] => []
  | off, r :: rs => Event.proc off r.2 0 :: visits (off + r.1) rs

/-- The names the visitor was invoked with, in the order of the invocations. -/
def visited : List Event → List (List Byte)
  | [] => []
  | Event.proc _ name _ :: tr => name :: visited tr
  | _ :: tr => visited tr

/-- The record offsets the visitor was invoked at, in the order of the
invocations. -/
def visited_at : List Event → List Nat
  | [] => []
  | Event.proc dirent _ _ :: tr => dirent :: visited_at tr
  | _ :: tr => visited_at tr

/-- The gateway answers the successive `getdents` calls of the read loop,
which starts in world `w` with a buffer of capacity `size` of which `read`
bytes are filled, with the positive results `xs` (each paired with the bytes
the kernel has) and then with `last`, leaving the world `w1`. -/
def Serves {σ : Type} (sys : Syscall σ) (fd : Int) (last : Int) (w1 : σ) :
    List (Int × List Byte) → Nat → Nat → σ → Prop
  | [], size, read, w =>
    (sys.getdents w fd (size - read)).1.1 = last ∧ (sys.getdents w fd (size - read)).2 = w1
  | x :: xs, size, read, w =>
    (sys.getdents w fd (size - read)).1 = x ∧ 0 < x.1 ∧
      Serves sys fd last w1 xs (size * 2) (read + x.1.toNat) (sys.getdents w fd (size - read)).2

/-- Each result of `xs` does not exceed the capacity requested by the call it
answers, and the kernel has that many bytes to store. -/
def Fits : List (Int × List Byte) → Nat → Nat → Prop
  | [], _, _ => True
  | x :: xs, size, read =>
    x.1.toNat ≤ size - read ∧ x.1.toNat ≤ x.2.length ∧ Fits xs (size * 2) (read + x.1.toNat)

/-- The chunks the gateway wrote: the first `ret` bytes of each answer. -/
def chunks (xs : List (Int × List Byte)) : List (List Byte) :=
  xs.map fun x => x.2.take x.1.toNat

/-- The events of the read loop on the answers `xs` followed by `last`. -/
def fetch_events (fd : Int) (last : Int) : List (Int × List Byte) → Nat → Nat → List Event
  | [], size, read => [Event.sys_getdents fd read (size - read) last]
  | x :: xs, size, read =>
    Event.sys_getdents fd read (size - read) x.1 :: Event.buffer_resize (size * 2) ::
      fetch_events fd last xs (size * 2) (read + x.1.toNat)

/-- The number of bytes the answers `xs` report. -/
def total (xs : List (Int × List Byte)) : Nat := (xs.map fun x => x.1.toNat).sum

/-- The buffer the read loop holds after the answers `xs`, having started
with `b` of which `read` bytes were filled. -/
def fetch_buffer (T : Target) : List (Int × List Byte) → Buffer → Nat → Buffer
  | [], b, _ => b
  | x :: xs, b, read =>
    fetch_buffer T xs (((b.write read (x.2.take x.1.toNat)).resize T (b.size * 2)))
      (read + x.1.toNat)

/-- The byte offsets at which the records `rs`, laid out from `off` on,
start. -/
def starts : Nat → List (Nat × List Byte) → List Nat
  | _, [] => []
  | off, r :: rs => off :: starts (off + r.1) rs

/-- The descriptors closed, in the order of the closes. -/
def closed : List Event → List Int
  | [] => []
  | Event.dir_close fd _ :: tr => fd :: closed tr
  | _ :: tr => closed tr

/-- The event is a read request or a resize of the buffer. -/
def Event.is_fetch : Event → Bool
  | Event.sys_getdents _ _ _ _ => true
  | Event.buffer_resize _ => true
  | _ => false

/-- The event is an invocation of the visitor. -/
def Event.is_proc : Event → Bool
  | Event.proc _ _ _ => true
  | _ => false

/-! ## The buffer -/

theorem Buffer.size_new (T : Target) (n : Nat) : (Buffer.new T n).size = n := by
  simp [Buffer.new, Buffer.size]

theorem Buffer.size_write (b : Buffer) (off : Nat) (data : List Byte) :
    (b.write off data).size = b.size := by
  simp only [Buffer.write, Buffer.size, List.length_take, List.length_append, List.length_drop]
  omega

theorem Buffer.size_resize (T : Target) (b : Buffer) (n : Nat) : (b.resize T n).size = n := by
  simp only [Buffer.resize, Buffer.size, List.length_take, List.length_append, List.length_map,
    List.length_range']
  omega

theorem Buffer.take_write (b : Buffer) (off : Nat) (data : List Byte)
    (h : off + data.length ≤ b.size) :
    (b.write off data).bytes.take (off + data.length) = b.bytes.take off ++ data := by
  have hlen : (b.bytes.take off ++ data).length = off + data.length := by
    simp only [List.length_append, List.length_take, Buffer.size] at h ⊢
    omega
  simp only [Buffer.write, List.take_take]
  rw [Nat.min_eq_left h, List.append_assoc, ← List.append_assoc, ← hlen, List.take_left]

theorem Buffer.take_resize (T : Target) (b : Buffer) (n m : Nat) (hn : n ≤ b.size)
    (hm : n ≤ m) : (b.resize T m).bytes.take n = b.bytes.take n := by
  simp only [Buffer.resize]
  rw [List.take_append_of_le_length (by simp only [List.length_take, Buffer.size] at hn ⊢; omega),
    List.take_take, Nat.min_eq_left hm]

/-! ## The decoding loop -/

theorem foreach_dirent_mono {α : Type} (T : Target) (mem : List Byte) (dsize : Nat)
    (body : Nat → α → Flow α) (k : Nat) :
    ∀ (fuel off : Nat) (a r : α), foreach_dirent T mem dsize body fuel off a = some r →
      foreach_dirent T mem dsize body (fuel + k) off a = some r := by
  intro fuel
  induction fuel with
  | zero => intro off a r h; simp [foreach_dirent] at h
  | succ n ih =>
    intro off a r h
    rw [Nat.add_right_comm]
    simp only [foreach_dirent] at h ⊢
    split
    · rename_i hlt
      rw [if_pos hlt] at h
      split
      · rename_i a1 hb
        rw [hb] at h
        exact h
      · rename_i a1 hb
        rw [hb] at h
        exact ih _ _ _ h
    · rename_i hlt
      rw [if_neg hlt] at h
      exact h

theorem list_body_next {σ : Type} (T : Target) (proc : σ → List Byte → Int × σ)
    (mem : List Byte) (current : Nat) (a : Run σ Int)
    (h : (proc a.world (dirent_name T mem current)).1 = 0) :
    list_body T proc mem current a =
      Flow.next ⟨0, (proc a.world (dirent_name T mem current)).2,
        a.trace ++ [Event.proc current (dirent_name T mem current) 0]⟩ := by
  simp [list_body, h]

theorem list_body_brk {σ : Type} (T : Target) (proc : σ → List Byte → Int × σ)
    (mem : List Byte) (current : Nat) (a : Run σ Int)
    (h : (proc a.world (dirent_name T mem current)).1 ≠ 0) :
    list_body T proc mem current a =
      Flow.brk ⟨(proc a.world (dirent_name T mem current)).1,
        (proc a.world (dirent_name T mem current)).2,
        a.trace ++ [Event.proc current (dirent_name T mem current)
          (proc a.world (dirent_name T mem current)).1]⟩ := by
  simp [list_body, h]

/-- The loop walks over records on which the visitor answers 0: after as many
iterations as there are records it stands at the end of the last of them. -/
theorem foreach_dirent_pass {σ : Type} (T : Target) (proc : σ → List Byte → Int × σ)
    (mem : List Byte) (dsize : Nat) :
    ∀ (rs : List (Nat × List Byte)) (fuel off : Nat) (a : Run σ Int),
      Records T mem off rs → Starts dsize off rs →
      Continues proc a.world (rs.map Prod.snd) →
      foreach_dirent T mem dsize (list_body T proc mem) (fuel + rs.length) off a =
        foreach_dirent T mem dsize (list_body T proc mem) fuel (off + span rs)
          ⟨if rs = [] then a.val else 0, after proc a.world (rs.map Prod.snd),
            a.trace ++ visits off rs⟩ := by
  intro rs
  induction rs with
  | nil => intro fuel off a _ _ _; simp [span, after, visits]
  | cons r rs ih =>
    intro fuel off a hrec hst hcont
    obtain ⟨hlen, hname, hrec1⟩ := hrec
    obtain ⟨hlt, hst1⟩ := hst
    simp only [List.map_cons, Continues] at hcont
    obtain ⟨h0, hcont1⟩ := hcont
    rw [← hname] at h0 hcont1
    have hstep : foreach_dirent T mem dsize (list_body T proc mem)
        (fuel + (r :: rs).length) off a =
        foreach_dirent T mem dsize (list_body T proc mem) (fuel + rs.length) (off + r.1)
          ⟨0, (proc a.world (dirent_name T mem off)).2,
            a.trace ++ [Event.proc off (dirent_name T mem off) 0]⟩ := by
      rw [List.length_cons, ← Nat.add_assoc]
      simp only [foreach_dirent, if_pos hlt, list_body_next T proc mem off a h0, hlen]
    rw [hstep, ih fuel (off + r.1) _ hrec1 hst1 hcont1]
    simp only [span, List.map_cons, List.sum_cons, after, visits, hname, Nat.add_assoc,
      List.append_assoc, List.singleton_append, ite_self, reduceCtorEq, if_false]

/-- Records of nonzero length that end at or before `dsize` all start below
`dsize`. -/
theorem starts_of_pos (dsize : Nat) :
    ∀ (rs : List (Nat × List Byte)) (off : Nat), (∀ r ∈ rs, 0 < r.1) →
      off + span rs ≤ dsize → Starts dsize off rs := by
  intro rs
  induction rs with
  | nil => intro off _ _; trivial
  | cons r rs ih =>
    intro off hpos hsum
    have hr : 0 < r.1 := hpos r (List.mem_cons_self _ _)
    simp only [span, List.map_cons, List.sum_cons] at hsum
    refine ⟨by omega, ih (off + r.1) (fun x hx => hpos x (List.mem_cons_of_mem _ hx)) ?_⟩
    simp only [span]
    omega

/-! ## The read loop -/

theorem list_fetch_mono {σ : Type} (T : Target) (sys : Syscall σ) (fd : Int) (k : Nat) :
    ∀ (fuel : Nat) (buffer : Buffer) (read_size : Nat) (w : σ) (r : Run σ Fetch),
      list_fetch T sys fd fuel buffer read_size w = some r →
      list_fetch T sys fd (fuel + k) buffer read_size w = some r := by
  intro fuel
  induction fuel with
  | zero => intro buffer read_size w r h; simp [list_fetch] at h
  | succ n ih =>
    intro buffer read_size w r h
    rw [Nat.add_right_comm]
    simp only [list_fetch] at h ⊢
    split
    · rename_i h0
      rw [if_pos h0] at h
      exact h
    · rename_i h0
      rw [if_neg h0] at h
      split
      · rename_i hneg
        rw [if_pos hneg] at h
        exact h
      · rename_i hneg
        rw [if_neg hneg] at h
        rw [Option.map_eq_some'] at h ⊢
        obtain ⟨k0, hk0, hr⟩ := h
        exact ⟨k0, ih _ _ _ _ hk0, hr⟩

/-- One turn of the read loop on a positive answer. -/
theorem list_fetch_pos {σ : Type} (T : Target) (sys : Syscall σ) (fd : Int) (fuel : Nat)
    (buffer : Buffer) (read_size : Nat) (w : σ)
    (hpos : 0 < (sys.getdents w fd (buffer.size - read_size)).1.1) :
    list_fetch T sys fd (fuel + 1) buffer read_size w =
      (list_fetch T sys fd fuel
        ((buffer.write read_size
          ((sys.getdents w fd (buffer.size - read_size)).1.2.take
            (sys.getdents w fd (buffer.size - read_size)).1.1.toNat)).resize T (buffer.size * 2))
        (read_size + (sys.getdents w fd (buffer.size - read_size)).1.1.toNat)
        (sys.getdents w fd (buffer.size - read_size)).2).map fun k =>
        ⟨k.val, k.world,
          Event.sys_getdents fd read_size (buffer.size - read_size)
            (sys.getdents w fd (buffer.size - read_size)).1.1 ::
          Event.buffer_resize (buffer.size * 2) :: k.trace⟩ := by
  have h0 : ¬ (sys.getdents w fd (buffer.size - read_size)).1.1 = 0 := by omega
  have h1 : ¬ (sys.getdents w fd (buffer.size - read_size)).1.1 < 0 := by omega
  simp only [list_fetch, if_neg h0, if_neg h1, Buffer.size_write]

/-- The read loop on a gateway that serves `xs` and then 0. -/
theorem list_fetch_serves_zero {σ : Type} (T : Target) (sys : Syscall σ) (fd : Int) (w1 : σ) :
    ∀ (xs : List (Int × List Byte)) (fuel : Nat) (buffer : Buffer) (read_size : Nat) (w : σ),
      Serves sys fd 0 w1 xs buffer.size read_size w →
      list_fetch T sys fd (fuel + xs.length + 1) buffer read_size w =
        some ⟨Fetch.filled (fetch_buffer T xs buffer read_size) (read_size + total xs), w1,
          fetch_events fd 0 xs buffer.size read_size⟩ := by
  intro xs
  induction xs with
  | nil =>
    intro fuel buffer read_size w h
    obtain ⟨hret, hw⟩ := h
    simp [list_fetch, hret, hw, fetch_buffer, total, fetch_events]
  | cons x xs ih =>
    intro fuel buffer read_size w h
    obtain ⟨hx, hpos, hrest⟩ := h
    rw [← hx] at hpos
    rw [List.length_cons, ← Nat.add_assoc, list_fetch_pos T sys fd _ buffer read_size w hpos]
    rw [hx]
    have hsz : buffer.size * 2 =
        ((buffer.write read_size (x.2.take x.1.toNat)).resize T (buffer.size * 2)).size := by
      rw [Buffer.size_resize]
    rw [hsz] at hrest
    rw [ih fuel _ _ _ hrest]
    simp only [Option.map_some', fetch_buffer, total, List.map_cons, List.sum_cons, fetch_events,
      Buffer.size_resize, Nat.add_assoc]

/-- The read loop on a gateway that serves `xs` and then a negative result. -/
theorem list_fetch_serves_neg {σ : Type} (T : Target) (sys : Syscall σ) (fd : Int) (e : Int)
    (he : e < 0) (w1 : σ) :
    ∀ (xs : List (Int × List Byte)) (fuel : Nat) (buffer : Buffer) (read_size : Nat) (w : σ),
      Serves sys fd e w1 xs buffer.size read_size w →
      list_fetch T sys fd (fuel + xs.length + 1) buffer read_size w =
        some ⟨Fetch.failed e, w1,
          fetch_events fd e xs buffer.size read_size ++ [Event.buffer_free]⟩ := by
  intro xs
  induction xs with
  | nil =>
    intro fuel buffer read_size w h
    obtain ⟨hret, hw⟩ := h
    have h0 : ¬ e = 0 := by omega
    simp [list_fetch, hret, hw, fetch_events, h0, he]
  | cons x xs ih =>
    intro fuel buffer read_size w h
    obtain ⟨hx, hpos, hrest⟩ := h
    rw [← hx] at hpos
    rw [List.length_cons, ← Nat.add_assoc, list_fetch_pos T sys fd _ buffer read_size w hpos]
    rw [hx]
    have hsz : buffer.size * 2 =
        ((buffer.write read_size (x.2.take x.1.toNat)).resize T (buffer.size * 2)).size := by
      rw [Buffer.size_resize]
    rw [hsz] at hrest
    rw [ih fuel _ _ _ hrest]
    simp only [Option.map_some', fetch_events, Buffer.size_resize, List.cons_append]

/-- What the buffer of the read loop holds after answers that fit: its
capacity has doubled once per answer, and its filled range is the range that
was filled before, followed by the chunks in the order of the calls. -/
theorem fetch_buffer_spec (T : Target) :
    ∀ (xs : List (Int × List Byte)) (b : Buffer) (read : Nat), Fits xs b.size read →
      read ≤ b.size →
      (fetch_buffer T xs b read).size = b.size * 2 ^ xs.length ∧
      (fetch_buffer T xs b read).bytes.take (read + total xs) =
        b.bytes.take read ++ (chunks xs).flatten := by
  intro xs
  induction xs with
  | nil => intro b read _ _; simp [fetch_buffer, total, chunks]
  | cons x xs ih =>
    intro b read hfit hread
    obtain ⟨hcap, hdata, hrest⟩ := hfit
    have hlen : (x.2.take x.1.toNat).length = x.1.toNat := by
      rw [List.length_take]; omega
    have hsz : ((b.write read (x.2.take x.1.toNat)).resize T (b.size * 2)).size = b.size * 2 :=
      Buffer.size_resize _ _ _
    rw [← hsz] at hrest
    obtain ⟨ih1, ih2⟩ := ih _ (read + x.1.toNat) hrest (by rw [hsz]; omega)
    refine ⟨?_, ?_⟩
    · simp only [fetch_buffer, ih1, hsz, List.length_cons, pow_succ]
      ring
    · have hkeep : ((b.write read (x.2.take x.1.toNat)).resize T (b.size * 2)).bytes.take
          (read + x.1.toNat) = b.bytes.take read ++ x.2.take x.1.toNat := by
        rw [Buffer.take_resize _ _ _ _ (by rw [Buffer.size_write]; omega) (by omega)]
        have := Buffer.take_write b read (x.2.take x.1.toNat) (by rw [hlen]; omega)
        rw [hlen] at this
        exact this
      simp only [fetch_buffer, total, List.map_cons, List.sum_cons, chunks, List.flatten_cons]
      simp only [total, chunks, Nat.add_assoc] at ih2
      rw [ih2, hkeep, List.append_assoc]

/-! ## Traces -/

theorem visited_append (a b : List Event) : visited (a ++ b) = visited a ++ visited b := by
  induction a with
  | nil => rfl
  | cons e a ih => cases e <;> simp [visited, ih]

theorem visited_at_append (a b : List Event) :
    visited_at (a ++ b) = visited_at a ++ visited_at b := by
  induction a with
  | nil => rfl
  | cons e a ih => cases e <;> simp [visited_at, ih]

theorem closed_append (a b : List Event) : closed (a ++ b) = closed a ++ closed b := by
  induction a with
  | nil => rfl
  | cons e a ih => cases e <;> simp [closed, ih]

theorem visited_visits : ∀ (rs : List (Nat × List Byte)) (off : Nat),
    visited (visits off rs) = rs.map Prod.snd := by
  intro rs
  induction rs with
  | nil => intro off; rfl
  | cons r rs ih => intro off; simp [visits, visited, ih]

theorem visited_at_visits : ∀ (rs : List (Nat × List Byte)) (off : Nat),
    visited_at (visits off rs) = starts off rs := by
  intro rs
  induction rs with
  | nil => intro off; rfl
  | cons r rs ih => intro off; simp [visits, visited_at, starts, ih]

theorem visited_of_fetch (tr : List Event) (h : ∀ e ∈ tr, e.is_fetch = true) :
    visited tr = [] ∧ visited_at tr = [] ∧ closed tr = [] ∧ Event.buffer_free ∉ tr := by
  induction tr with
  | nil => simp [visited, visited_at, closed]
  | cons e tr ih =>
    obtain ⟨h1, h2, h3, h4⟩ := ih (fun x hx => h x (List.mem_cons_of_mem _ hx))
    have he := h e (List.mem_cons_self _ _)
    cases e <;> simp_all [visited, visited_at, closed, Event.is_fetch]

theorem closed_of_proc (tr : List Event) (h : ∀ e ∈ tr, e.is_proc = true) :
    closed tr = [] ∧ Event.buffer_free ∉ tr := by
  induction tr with
  | nil => simp [closed]
  | cons e tr ih =>
    obtain ⟨h1, h2⟩ := ih (fun x hx => h x (List.mem_cons_of_mem _ hx))
    have he := h e (List.mem_cons_self _ _)
    cases e <;> simp_all [closed, Event.is_proc]

/-- The offsets of records of nonzero length increase strictly. -/
theorem starts_increasing : ∀ (rs : List (Nat × List Byte)) (off : Nat),
    (∀ r ∈ rs, 0 < r.1) →
    (∀ o ∈ starts off rs, off ≤ o) ∧ (starts off rs).Pairwise (fun a b => a < b) := by
  intro rs
  induction rs with
  | nil => intro off _; simp [starts]
  | cons r rs ih =>
    intro off hpos
    have hr : 0 < r.1 := hpos r (List.mem_cons_self _ _)
    obtain ⟨ih1, ih2⟩ := ih (off + r.1) (fun x hx => hpos x (List.mem_cons_of_mem _ hx))
    refine ⟨?_, ?_⟩
    · intro o ho
      simp only [starts, List.mem_cons] at ho
      rcases ho with rfl | ho
      · exact Nat.le_refl _
      · have := ih1 o ho
        omega
    · simp only [starts, List.pairwise_cons]
      refine ⟨?_, ih2⟩
      intro o ho
      have := ih1 o ho
      omega

/-- The events of the read loop: read requests and resizes only, followed by
the release of the buffer exactly when the loop returns an error. -/
theorem list_fetch_trace {σ : Type} (T : Target) (sys : Syscall σ) (fd : Int) :
    ∀ (fuel : Nat) (buffer : Buffer) (read_size : Nat) (w : σ) (r : Run σ Fetch),
      list_fetch T sys fd fuel buffer read_size w = some r →
      ∃ pre, (∀ e ∈ pre, e.is_fetch = true) ∧
        ((∃ b n, r.val = Fetch.filled b n ∧ r.trace = pre) ∨
         (∃ c, r.val = Fetch.failed c ∧ r.trace = pre ++ [Event.buffer_free])) := by
  intro fuel
  induction fuel with
  | zero => intro buffer read_size w r h; simp [list_fetch] at h
  | succ n ih =>
    intro buffer read_size w r h
    by_cases hpos : 0 < (sys.getdents w fd (buffer.size - read_size)).1.1
    · rw [list_fetch_pos T sys fd n buffer read_size w hpos, Option.map_eq_some'] at h
      obtain ⟨k0, hk0, hr⟩ := h
      obtain ⟨pre, hpre, hcase⟩ := ih _ _ _ _ hk0
      subst hr
      refine ⟨Event.sys_getdents fd read_size (buffer.size - read_size)
        (sys.getdents w fd (buffer.size - read_size)).1.1 ::
        Event.buffer_resize (buffer.size * 2) :: pre, ?_, ?_⟩
      · intro e he
        simp only [List.mem_cons] at he
        rcases he with rfl | rfl | he
        · rfl
        · rfl
        · exact hpre e he
      · rcases hcase with ⟨b, m, hv, ht⟩ | ⟨c, hv, ht⟩
        · exact Or.inl ⟨b, m, hv, by simp [ht]⟩
        · exact Or.inr ⟨c, hv, by simp [ht]⟩
    · simp only [list_fetch] at h
      split at h
      · simp only [Option.some.injEq] at h
        subst h
        exact ⟨_, by simp [Event.is_fetch], Or.inl ⟨_, _, rfl, rfl⟩⟩
      · rename_i h0
        have hneg : (sys.getdents w fd (buffer.size - read_size)).1.1 < 0 := by omega
        rw [if_pos hneg] at h
        simp only [Option.some.injEq] at h
        subst h
        exact ⟨[Event.sys_getdents fd read_size (buffer.size - read_size)
          (sys.getdents w fd (buffer.size - read_size)).1.1], by simp [Event.is_fetch],
          Or.inr ⟨_, rfl, rfl⟩⟩

/-- The decoding loop of `list` only adds invocations of the visitor to the
trace. -/
theorem foreach_dirent_trace {σ : Type} (T : Target) (proc : σ → List Byte → Int × σ)
    (mem : List Byte) (dsize : Nat) :
    ∀ (fuel off : Nat) (a k : Run σ Int),
      foreach_dirent T mem dsize (list_body T proc mem) fuel off a = some k →
      ∃ vs, k.trace = a.trace ++ vs ∧ ∀ e ∈ vs, e.is_proc = true := by
  intro fuel
  induction fuel with
  | zero => intro off a k h; simp [foreach_dirent] at h
  | succ n ih =>
    intro off a k h
    simp only [foreach_dirent] at h
    split at h
    · by_cases h0 : (proc a.world (dirent_name T mem off)).1 = 0
      · rw [list_body_next T proc mem off a h0] at h
        obtain ⟨vs, hvs, hall⟩ := ih _ _ _ h
        refine ⟨Event.proc off (dirent_name T mem off) 0 :: vs, by simp [hvs], ?_⟩
        intro e he
        simp only [List.mem_cons] at he
        rcases he with rfl | he
        · rfl
        · exact hall e he
      · rw [list_body_brk T proc mem off a h0] at h
        simp only [Option.some.injEq] at h
        subst h
        exact ⟨[_], rfl, by simp [Event.is_proc]⟩
    · simp only [Option.some.injEq] at h
      subst h
      exact ⟨[], by simp, by simp⟩

/-! ## How the decoding loop ends -/

theorem records_append (T : Target) (mem : List Byte) :
    ∀ (a b : List (Nat × List Byte)) (off : Nat),
      Records T mem off (a ++ b) ↔ Records T mem off a ∧ Records T mem (off + span a) b := by
  intro a
  induction a with
  | nil => intro b off; simp [Records, span]
  | cons r a ih =>
    intro b off
    have hs : off + span (r :: a) = off + r.1 + span a := by
      simp [span, Nat.add_assoc]
    show (T.d_reclen mem off = r.1 ∧ dirent_name T mem off = r.2 ∧
        Records T mem (off + r.1) (a ++ b)) ↔
      (T.d_reclen mem off = r.1 ∧ dirent_name T mem off = r.2 ∧ Records T mem (off + r.1) a) ∧
        Records T mem (off + span (r :: a)) b
    rw [hs, ih b (off + r.1)]
    tauto

theorem span_append (a b : List (Nat × List Byte)) : span (a ++ b) = span a + span b := by
  simp [span]

/-- The loop leaves normally once the records passed reach `dsize`. -/
theorem foreach_dirent_exhaust {σ : Type} (T : Target) (proc : σ → List Byte → Int × σ)
    (mem : List Byte) (dsize : Nat) (rs : List (Nat × List Byte)) (a : Run σ Int)
    (hrec : Records T mem 0 rs) (hst : Starts dsize 0 rs) (hend : dsize ≤ span rs)
    (hcont : Continues proc a.world (rs.map Prod.snd)) (fuel : Nat) (hfuel : rs.length < fuel) :
    foreach_dirent T mem dsize (list_body T proc mem) fuel 0 a =
      some ⟨if rs = [] then a.val else 0, after proc a.world (rs.map Prod.snd),
        a.trace ++ visits 0 rs⟩ := by
  obtain ⟨k, rfl⟩ : ∃ k, fuel = (k + 1) + rs.length := ⟨fuel - rs.length - 1, by omega⟩
  rw [foreach_dirent_pass T proc mem dsize rs (k + 1) 0 a hrec hst hcont]
  simp only [foreach_dirent, Nat.zero_add]
  rw [if_neg (by omega)]

/-- The loop leaves through `break` at the first record on which the visitor
answers a nonzero code. -/
theorem foreach_dirent_stop {σ : Type} (T : Target) (proc : σ → List Byte → Int × σ)
    (mem : List Byte) (dsize : Nat) (rs : List (Nat × List Byte)) (a : Run σ Int)
    (hrec : Records T mem 0 rs) (hst : Starts dsize 0 rs) (hin : span rs < dsize)
    (hcont : Continues proc a.world (rs.map Prod.snd))
    (hstop : (proc (after proc a.world (rs.map Prod.snd))
      (dirent_name T mem (span rs))).1 ≠ 0)
    (fuel : Nat) (hfuel : rs.length < fuel) :
    foreach_dirent T mem dsize (list_body T proc mem) fuel 0 a =
      some ⟨(proc (after proc a.world (rs.map Prod.snd)) (dirent_name T mem (span rs))).1,
        (proc (after proc a.world (rs.map Prod.snd)) (dirent_name T mem (span rs))).2,
        a.trace ++ visits 0 rs ++ [Event.proc (span rs) (dirent_name T mem (span rs))
          (proc (after proc a.world (rs.map Prod.snd)) (dirent_name T mem (span rs))).1]⟩ := by
  obtain ⟨k, rfl⟩ : ∃ k, fuel = (k + 1) + rs.length := ⟨fuel - rs.length - 1, by omega⟩
  rw [foreach_dirent_pass T proc mem dsize rs (k + 1) 0 a hrec hst hcont]
  simp only [foreach_dirent, Nat.zero_add]
  rw [if_pos hin, list_body_brk T proc mem (span rs) _ hstop]

/-- The loop visits a record that reaches up to or beyond `dsize` and leaves
after it, whatever the visitor answers. -/
theorem foreach_dirent_overrun {σ : Type} (T : Target) (proc : σ → List Byte → Int × σ)
    (mem : List Byte) (dsize : Nat) (rs : List (Nat × List Byte)) (a : Run σ Int)
    (hrec : Records T mem 0 rs) (hst : Starts dsize 0 rs) (hin : span rs < dsize)
    (hover : dsize ≤ span rs + T.d_reclen mem (span rs))
    (hcont : Continues proc a.world (rs.map Prod.snd))
    (fuel : Nat) (hfuel : rs.length + 1 < fuel) :
    foreach_dirent T mem dsize (list_body T proc mem) fuel 0 a =
      some ⟨(proc (after proc a.world (rs.map Prod.snd)) (dirent_name T mem (span rs))).1,
        (proc (after proc a.world (rs.map Prod.snd)) (dirent_name T mem (span rs))).2,
        a.trace ++ visits 0 rs ++ [Event.proc (span rs) (dirent_name T mem (span rs))
          (proc (after proc a.world (rs.map Prod.snd)) (dirent_name T mem (span rs))).1]⟩ := by
  by_cases hstop : (proc (after proc a.world (rs.map Prod.snd))
      (dirent_name T mem (span rs))).1 = 0
  · obtain ⟨k, rfl⟩ : ∃ k, fuel = (k + 2) + rs.length := ⟨fuel - rs.length - 2, by omega⟩
    rw [foreach_dirent_pass T proc mem dsize rs (k + 2) 0 a hrec hst hcont]
    simp only [foreach_dirent, Nat.zero_add]
    rw [if_pos hin, list_body_next T proc mem (span rs) _ hstop]
    simp only []
    rw [if_neg (by omega), hstop]
  · exact foreach_dirent_stop T proc mem dsize rs a hrec hst hin hcont hstop fuel (by omega)

/-- On a record of declared length 0 that lies below `dsize`, the loop does
not advance while the visitor answers 0: no amount of fuel lets it leave. -/
theorem foreach_dirent_stuck {σ : Type} (T : Target) (proc : σ → List Byte → Int × σ)
    (mem : List Byte) (dsize off : Nat) (hin : off < dsize) (hzero : T.d_reclen mem off = 0)
    (hproc : ∀ v name, (proc v name).1 = 0) :
    ∀ (fuel : Nat) (a : Run σ Int),
      foreach_dirent T mem dsize (list_body T proc mem) fuel off a = none := by
  intro fuel
  induction fuel with
  | zero => intro a; rfl
  | succ n ih =>
    intro a
    simp only [foreach_dirent]
    rw [if_pos hin, list_body_next T proc mem off a (hproc _ _)]
    simp only [hzero, Nat.add_zero]
    exact ih _

/-- The same after any number of records on which the visitor answered 0. -/
theorem foreach_dirent_stuck_after {σ : Type} (T : Target) (proc : σ → List Byte → Int × σ)
    (mem : List Byte) (dsize : Nat) (rs : List (Nat × List Byte)) (a : Run σ Int)
    (hrec : Records T mem 0 rs) (hst : Starts dsize 0 rs) (hin : span rs < dsize)
    (hzero : T.d_reclen mem (span rs) = 0) (hproc : ∀ v name, (proc v name).1 = 0)
    (hcont : Continues proc a.world (rs.map Prod.snd)) (fuel : Nat) :
    foreach_dirent T mem dsize (list_body T proc mem) fuel 0 a = none := by
  cases hres : foreach_dirent T mem dsize (list_body T proc mem) fuel 0 a with
  | none => rfl
  | some r =>
    have h1 := foreach_dirent_mono T mem dsize (list_body T proc mem) rs.length fuel 0 a r hres
    rw [foreach_dirent_pass T proc mem dsize rs fuel 0 a hrec hst hcont, Nat.zero_add,
      foreach_dirent_stuck T proc mem dsize (span rs) hin hzero hproc] at h1
    exact absurd h1 (by simp)

theorem continues_of_always {σ : Type} (proc : σ → List Byte → Int × σ)
    (hproc : ∀ v name, (proc v name).1 = 0) :
    ∀ (names : List (List Byte)) (w : σ), Continues proc w names := by
  intro names
  induction names with
  | nil => intro w; trivial
  | cons n ns ih => intro w; exact ⟨hproc w n, ih _⟩

/-! ## `list` in terms of its two loops -/

theorem list_of_filled {σ : Type} (T : Target) (sys : Syscall σ)
    (proc : σ → List Byte → Int × σ) (dir : Directory) (uninit : Int) (w w1 : σ) (f0 : Nat)
    (buffer : Buffer) (read_size : Nat) (tr : List Event)
    (hfetch : list_fetch T sys dir.fd f0 (Buffer.new T T.PAGE_SIZE) 0 w =
      some ⟨Fetch.filled buffer read_size, w1, tr⟩)
    (fuel : Nat) (hf0 : f0 ≤ fuel) :
    dir.list T sys proc uninit fuel w =
      (foreach_dirent T buffer.bytes read_size (list_body T proc buffer.bytes) fuel 0
        ⟨uninit, w1, []⟩).map fun k =>
        ⟨k.val, k.world,
          Event.buffer_new T.PAGE_SIZE :: tr ++ k.trace ++ [Event.buffer_free]⟩ := by
  obtain ⟨k, rfl⟩ : ∃ k, fuel = f0 + k := ⟨fuel - f0, by omega⟩
  have h := list_fetch_mono T sys dir.fd k f0 _ _ _ _ hfetch
  simp only [Directory.list, h]

theorem list_of_failed {σ : Type} (T : Target) (sys : Syscall σ)
    (proc : σ → List Byte → Int × σ) (dir : Directory) (uninit : Int) (w w1 : σ) (f0 : Nat)
    (e : Int) (tr : List Event)
    (hfetch : list_fetch T sys dir.fd f0 (Buffer.new T T.PAGE_SIZE) 0 w =
      some ⟨Fetch.failed e, w1, tr⟩)
    (fuel : Nat) (hf0 : f0 ≤ fuel) :
    dir.list T sys proc uninit fuel w = some ⟨e, w1, Event.buffer_new T.PAGE_SIZE :: tr⟩ := by
  obtain ⟨k, rfl⟩ : ∃ k, fuel = f0 + k := ⟨fuel - f0, by omega⟩
  have h := list_fetch_mono T sys dir.fd k f0 _ _ _ _ hfetch
  simp only [Directory.list, h]

theorem list_fetch_det {σ : Type} (T : Target) (sys : Syscall σ) (fd : Int) (f1 f2 : Nat)
    (buffer : Buffer) (read_size : Nat) (w : σ) (r1 r2 : Run σ Fetch)
    (h1 : list_fetch T sys fd f1 buffer read_size w = some r1)
    (h2 : list_fetch T sys fd f2 buffer read_size w = some r2) : r1 = r2 := by
  have e1 := list_fetch_mono T sys fd f2 f1 _ _ _ _ h1
  have e2 := list_fetch_mono T sys fd f1 f2 _ _ _ _ h2
  rw [Nat.add_comm] at e2
  rw [e1] at e2
  exact Option.some.inj e2

/-- With a filled range that holds, after records the visitor passes, a record
of declared length 0, `list` does not return while the visitor always
answers 0. -/
theorem list_stuck {σ : Type} (T : Target) (sys : Syscall σ)
    (proc : σ → List Byte → Int × σ) (dir : Directory) (uninit : Int) (w w1 : σ) (f0 : Nat)
    (buffer : Buffer) (read_size : Nat) (tr : List Event) (rs : List (Nat × List Byte))
    (hfetch : list_fetch T sys dir.fd f0 (Buffer.new T T.PAGE_SIZE) 0 w =
      some ⟨Fetch.filled buffer read_size, w1, tr⟩)
    (hrec : Records T buffer.bytes 0 rs) (hst : Starts read_size 0 rs)
    (hin : span rs < read_size) (hzero : T.d_reclen buffer.bytes (span rs) = 0)
    (hproc : ∀ v name, (proc v name).1 = 0) (fuel : Nat) :
    dir.list T sys proc uninit fuel w = none := by
  cases hf : list_fetch T sys dir.fd fuel (Buffer.new T T.PAGE_SIZE) 0 w with
  | none => simp only [Directory.list, hf]
  | some r0 =>
    have hr0 := list_fetch_det T sys dir.fd fuel f0 _ _ _ _ _ hf hfetch
    subst hr0
    rw [list_of_filled T sys proc dir uninit w w1 fuel buffer read_size tr hf fuel (Nat.le_refl _),
      foreach_dirent_stuck_after T proc buffer.bytes read_size rs _ hrec hst hin hzero hproc
        (continues_of_always proc hproc _ _) fuel]
    rfl

/-- With a filled range that holds, after records the visitor passes, one
more record below the filled-byte count at which the loop ends (because the
visitor answers a nonzero code there, or because the record reaches the
filled-byte count or beyond), `list` returns the answer of the visitor to
that record. -/
theorem list_last_visit {σ : Type} (T : Target) (sys : Syscall σ)
    (proc : σ → List Byte → Int × σ) (dir : Directory) (uninit : Int) (w w1 : σ) (f0 : Nat)
    (buffer : Buffer) (read_size : Nat) (tr : List Event) (rs : List (Nat × List Byte))
    (hfetch : list_fetch T sys dir.fd f0 (Buffer.new T T.PAGE_SIZE) 0 w =
      some ⟨Fetch.filled buffer read_size, w1, tr⟩)
    (hrec : Records T buffer.bytes 0 rs) (hst : Starts read_size 0 rs)
    (hin : span rs < read_size)
    (hcont : Continues proc w1 (rs.map Prod.snd))
    (hend : (proc (after proc w1 (rs.map Prod.snd))
        (dirent_name T buffer.bytes (span rs))).1 ≠ 0 ∨
      read_size ≤ span rs + T.d_reclen buffer.bytes (span rs))
    (fuel : Nat) (hf0 : f0 ≤ fuel) (hfuel : rs.length + 1 < fuel) :
    dir.list T sys proc uninit fuel w =
      some ⟨(proc (after proc w1 (rs.map Prod.snd)) (dirent_name T buffer.bytes (span rs))).1,
        (proc (after proc w1 (rs.map Prod.snd)) (dirent_name T buffer.bytes (span rs))).2,
        Event.buffer_new T.PAGE_SIZE :: tr ++ visits 0 rs ++
          [Event.proc (span rs) (dirent_name T buffer.bytes (span rs))
            (proc (after proc w1 (rs.map Prod.snd)) (dirent_name T buffer.bytes (span rs))).1,
           Event.buffer_free]⟩ := by
  rw [list_of_filled T sys proc dir uninit w w1 f0 buffer read_size tr hfetch fuel hf0]
  rcases hend with hstop | hover
  · rw [foreach_dirent_stop T proc buffer.bytes read_size rs ⟨uninit, w1, []⟩ hrec hst hin hcont
      hstop fuel (by omega)]
    simp
  · rw [foreach_dirent_overrun T proc buffer.bytes read_size rs ⟨uninit, w1, []⟩ hrec hst hin
      hover hcont fuel hfuel]
    simp

/-- The names visited in a trace of `list` that ends with one more visit
after the records `rs`. -/
theorem visited_last_visit (n : Nat) (tr : List Event) (htr : ∀ e ∈ tr, e.is_fetch = true)
    (rs : List (Nat × List Byte)) (off : Nat) (name : List Byte) (c : Int) :
    visited (Event.buffer_new n :: tr ++ visits 0 rs ++
      [Event.proc off name c, Event.buffer_free]) = rs.map Prod.snd ++ [name] := by
  obtain ⟨hv1, _, _, _⟩ := visited_of_fetch tr htr
  simp [visited, visited_append, hv1, visited_visits]

/-- The events of a read loop that was left through `break` are read requests
and resizes. -/
theorem list_fetch_filled_trace {σ : Type} (T : Target) (sys : Syscall σ) (fd : Int)
    (fuel : Nat) (b0 : Buffer) (n0 : Nat) (w w1 : σ) (buffer : Buffer) (read_size : Nat)
    (tr : List Event)
    (hfetch : list_fetch T sys fd fuel b0 n0 w = some ⟨Fetch.filled buffer read_size, w1, tr⟩) :
    ∀ e ∈ tr, e.is_fetch = true := by
  obtain ⟨pre, hpre, hcase⟩ := list_fetch_trace T sys fd fuel _ _ _ _ hfetch
  rcases hcase with ⟨_, _, _, ht⟩ | ⟨c, hv, _⟩
  · simp only at ht
    rw [ht]
    exact hpre
  · simp at hv

/-! ## Records of declared length 0 -/

theorem starts_append_iff (dsize : Nat) :
    ∀ (a b : List (Nat × List Byte)) (off : Nat),
      Starts dsize off (a ++ b) ↔ Starts dsize off a ∧ Starts dsize (off + span a) b := by
  intro a
  induction a with
  | nil => intro b off; simp [Starts, span]
  | cons r a ih =>
    intro b off
    have hs : off + span (r :: a) = off + r.1 + span a := by
      simp [span, Nat.add_assoc]
    show (off < dsize ∧ Starts dsize (off + r.1) (a ++ b)) ↔
      (off < dsize ∧ Starts dsize (off + r.1) a) ∧ Starts dsize (off + span (r :: a)) b
    rw [hs, ih b (off + r.1)]
    tauto

theorem visits_append : ∀ (a b : List (Nat × List Byte)) (off : Nat),
    visits off (a ++ b) = visits off a ++ visits (off + span a) b := by
  intro a
  induction a with
  | nil => intro b off; simp [visits, span]
  | cons r a ih =>
    intro b off
    have hs : off + span (r :: a) = off + r.1 + span a := by
      simp [span, Nat.add_assoc]
    show Event.proc off r.2 0 :: visits (off + r.1) (a ++ b) =
      Event.proc off r.2 0 :: visits (off + r.1) a ++ visits (off + span (r :: a)) b
    rw [hs, ih b (off + r.1)]
    rfl

/-- A record of declared length 0 is found again where it ends: it counts as
any number of records at the same offset. -/
theorem records_replicate_zero (T : Target) (mem : List Byte) (dsize off : Nat)
    (hin : off < dsize) (hzero : T.d_reclen mem off = 0) :
    ∀ k : Nat,
      Records T mem off (List.replicate k (0, dirent_name T mem off)) ∧
      Starts dsize off (List.replicate k (0, dirent_name T mem off)) ∧
      span (List.replicate k (0, dirent_name T mem off)) = 0 ∧
      visits off (List.replicate k (0, dirent_name T mem off)) =
        List.replicate k (Event.proc off (dirent_name T mem off) 0) := by
  intro k
  induction k with
  | zero => simp [Records, Starts, span, visits]
  | succ k ih =>
    obtain ⟨h1, h2, h3, h4⟩ := ih
    refine ⟨⟨hzero, rfl, h1⟩, ⟨hin, h2⟩, ?_, ?_⟩
    · simp only [span] at h3
      simp only [span, List.replicate_succ, List.map_cons, List.sum_cons, h3]
    · simp only [List.replicate_succ, visits, Nat.add_zero, h4]

/-! ## The claims about decoding -/

/-- C1: when the read phase of `Directory::list` leaves a filled byte range
that consists of N valid contiguous records (each of nonzero declared length,
the lengths summing to the filled-byte count) and the visitor always returns
0, `list` returns, and it has invoked the visitor exactly N times, at the
offsets of the records in increasing order, the i-th invocation receiving the
name embedded in the i-th record; with at least one record the result is 0. -/
theorem C1_list_visits_every_record {σ : Type} (T : Target) (sys : Syscall σ)
    (proc : σ → List Byte → Int × σ) (dir : Directory) (uninit : Int) (w w1 : σ) (f0 : Nat)
    (buffer : Buffer) (read_size : Nat) (tr : List Event) (rs : List (Nat × List Byte))
    (hfetch : list_fetch T sys dir.fd f0 (Buffer.new T T.PAGE_SIZE) 0 w =
      some ⟨Fetch.filled buffer read_size, w1, tr⟩)
    (hrec : Records T buffer.bytes 0 rs) (hpos : ∀ r ∈ rs, 0 < r.1)
    (hsum : span rs = read_size) (hproc : ∀ v name, (proc v name).1 = 0)
    (fuel : Nat) (hf0 : f0 ≤ fuel) (hfuel : rs.length < fuel) :
    ∃ r, dir.list T sys proc uninit fuel w = some r ∧
      r.trace = Event.buffer_new T.PAGE_SIZE :: tr ++ visits 0 rs ++ [Event.buffer_free] ∧
      visited r.trace = rs.map Prod.snd ∧
      (visited r.trace).length = rs.length ∧
      visited_at r.trace = starts 0 rs ∧
      (visited_at r.trace).Pairwise (fun a b => a < b) ∧
      (rs ≠ [] → r.val = 0) := by
  have hst : Starts read_size 0 rs := starts_of_pos read_size rs 0 hpos (by omega)
  have hrun := foreach_dirent_exhaust T proc buffer.bytes read_size rs ⟨uninit, w1, []⟩ hrec hst
    (by omega) (continues_of_always proc hproc _ _) fuel hfuel
  obtain ⟨pre, hpre, hcase⟩ := list_fetch_trace T sys dir.fd f0 _ _ _ _ hfetch
  have htr : tr = pre := by
    rcases hcase with ⟨_, _, _, ht⟩ | ⟨c, hv, _⟩
    · exact ht
    · simp at hv
  obtain ⟨hv1, hv2, _, _⟩ := visited_of_fetch pre hpre
  have hnames : visited (Event.buffer_new T.PAGE_SIZE :: tr ++ visits 0 rs ++
      [Event.buffer_free]) = rs.map Prod.snd := by
    rw [htr]
    simp [visited, visited_append, hv1, visited_visits]
  have hoffs : visited_at (Event.buffer_new T.PAGE_SIZE :: tr ++ visits 0 rs ++
      [Event.buffer_free]) = starts 0 rs := by
    rw [htr]
    simp [visited_at, visited_at_append, hv2, visited_at_visits]
  have hlist : dir.list T sys proc uninit fuel w =
      some ⟨if rs = [] then uninit else 0, after proc w1 (rs.map Prod.snd),
        Event.buffer_new T.PAGE_SIZE :: tr ++ visits 0 rs ++ [Event.buffer_free]⟩ := by
    rw [list_of_filled T sys proc dir uninit w w1 f0 buffer read_size tr hfetch fuel hf0, hrun]
    simp
  refine ⟨_, hlist, rfl, hnames, ?_, hoffs, ?_, ?_⟩
  · rw [hnames, List.length_map]
  · rw [hoffs]
    exact (starts_increasing rs 0 hpos).2
  · intro hne
    simp [hne]

/-- C1, on the directory with the entries `.`, `..`, `a.txt` and `b.txt`: the
visited sequence is those four names in that order, and the result is 0. -/
theorem C1_list_visits_every_record_witness :
    ∃ r, Directory.list (linux_x86_64 64) scripted keep_going ⟨3⟩ 77 10 four_entries = some r ∧
      visited r.trace = [cstr ".", cstr "..", cstr "a.txt", cstr "b.txt"] ∧
      visited_at r.trace = [0, 24, 48, 72] ∧ r.val = 0 := by
  obtain ⟨r, h1, _, h3, _, h5, _, h7⟩ :=
    C1_list_visits_every_record (linux_x86_64 64) scripted keep_going ⟨3⟩ 77 four_entries
      ⟨3, [], 0⟩ 3 (fetch_buffer (linux_x86_64 64) four_entries.reads (Buffer.new (linux_x86_64 64) 64) 0)
      96 (fetch_events 3 0 four_entries.reads 64 0) four_records
      (by decide) ⟨by decide, by decide, by decide, by decide, by decide, by decide, by decide,
        by decide, trivial⟩ (by decide) (by decide) (fun _ _ => rfl) 10 (by decide) (by decide)
  exact ⟨r, h1, h3, h5, h7 (by decide)⟩

/-- C2: when the filled byte range consists of valid contiguous records and
the visitor first returns a nonzero code `c` at its i-th invocation (it
answered 0 on the `i - 1` records of `pre` and answers `c` on the next record
`x`), `list` returns exactly `c`, and the visitor has been invoked exactly `i`
times, on the first `i` records in order, and not on any later record. -/
theorem C2_list_stops_at_first_nonzero {σ : Type} (T : Target) (sys : Syscall σ)
    (proc : σ → List Byte → Int × σ) (dir : Directory) (uninit : Int) (w w1 : σ) (f0 : Nat)
    (buffer : Buffer) (read_size : Nat) (tr : List Event)
    (pre post : List (Nat × List Byte)) (x : Nat × List Byte) (c : Int)
    (hfetch : list_fetch T sys dir.fd f0 (Buffer.new T T.PAGE_SIZE) 0 w =
      some ⟨Fetch.filled buffer read_size, w1, tr⟩)
    (hrec : Records T buffer.bytes 0 (pre ++ x :: post))
    (hpos : ∀ r ∈ pre ++ x :: post, 0 < r.1)
    (hsum : span (pre ++ x :: post) = read_size)
    (hcont : Continues proc w1 (pre.map Prod.snd))
    (hc : (proc (after proc w1 (pre.map Prod.snd)) x.2).1 = c) (hne : c ≠ 0)
    (fuel : Nat) (hf0 : f0 ≤ fuel) (hfuel : pre.length + 1 < fuel) :
    ∃ r, dir.list T sys proc uninit fuel w = some r ∧ r.val = c ∧
      r.trace = Event.buffer_new T.PAGE_SIZE :: tr ++ visits 0 pre ++
        [Event.proc (span pre) x.2 c, Event.buffer_free] ∧
      visited r.trace = (pre ++ [x]).map Prod.snd ∧
      (visited r.trace).length = pre.length + 1 := by
  obtain ⟨hrec1, hx, hname, _⟩ := (records_append T buffer.bytes pre (x :: post) 0).1 hrec
  rw [Nat.zero_add] at hx hname
  have hxpos : 0 < x.1 := hpos x (by simp)
  have hspan : span pre + (x.1 + span post) = read_size := by
    rw [← hsum, span_append]
    simp [span]
  have hst : Starts read_size 0 pre :=
    starts_of_pos read_size pre 0 (fun r hr => hpos r (by simp [hr])) (by omega)
  rw [← hname] at hc
  have hlist := list_last_visit T sys proc dir uninit w w1 f0 buffer read_size tr pre hfetch hrec1
    hst (by omega) hcont (Or.inl (by rw [hc]; exact hne)) fuel hf0 hfuel
  rw [hc, hname] at hlist
  have hnames := visited_last_visit T.PAGE_SIZE tr
    (list_fetch_filled_trace T sys dir.fd f0 _ _ _ _ _ _ _ hfetch) pre (span pre) x.2 c
  refine ⟨_, hlist, rfl, rfl, ?_, ?_⟩
  · rw [hnames]
    simp
  · rw [hnames]
    simp

/-- C2, on the directory with the entries `.`, `..`, `a.txt` and `b.txt` and a
visitor that returns 1 on `a.txt`: the visited names are `.`, `..`, `a.txt`
and the result is 1. -/
theorem C2_list_stops_at_first_nonzero_witness :
    ∃ r, Directory.list (linux_x86_64 64) scripted (stop_at (cstr "a.txt") 1) ⟨3⟩ 77 10
        four_entries = some r ∧
      r.val = 1 ∧ visited r.trace = [cstr ".", cstr "..", cstr "a.txt"] := by
  obtain ⟨r, h1, h2, _, h4, _⟩ :=
    C2_list_stops_at_first_nonzero (linux_x86_64 64) scripted (stop_at (cstr "a.txt") 1) ⟨3⟩ 77
      four_entries ⟨3, [], 0⟩ 3
      (fetch_buffer (linux_x86_64 64) four_entries.reads (Buffer.new (linux_x86_64 64) 64) 0)
      96 (fetch_events 3 0 four_entries.reads 64 0)
      [(24, cstr "."), (24, cstr "..")] [(24, cstr "b.txt")] (24, cstr "a.txt") 1
      (by decide) ⟨by decide, by decide, by decide, by decide, by decide, by decide, by decide,
        by decide, trivial⟩ (by decide) (by decide) ⟨by decide, by decide, trivial⟩ (by decide)
      (by decide) 10 (by decide) (by decide)
  exact ⟨r, h1, h2, h4⟩

/-- C3: a handle whose first `getdents` returns 0 (no records at all; here
descriptor 3 of the scripted gateway with nothing left to read).  `list`
invokes the visitor zero times, but what it returns is the value that the
local `ret` held before any assignment, whatever that value is; it is 0 only
if that value happens to be 0. -/
theorem C3_list_no_records_returns_uninit (uninit : Int) (fuel : Nat) :
    Directory.list (linux_x86_64 64) scripted keep_going ⟨3⟩ uninit (fuel + 1) ⟨3, [], 0⟩ =
      some ⟨uninit, ⟨3, [], 0⟩,
        [Event.buffer_new 64, Event.sys_getdents 3 0 64 0, Event.buffer_free]⟩ := by
  simp [Directory.list, list_fetch, foreach_dirent, scripted, linux_x86_64, Buffer.new,
    Buffer.size]

/-- C4, refuted on a filled range of 48 bytes that holds the valid record `a`
and then, at offset 24, a record `x` of declared length 0: with a visitor that
always returns 0, `list` returns for no amount of fuel; with a visitor that
returns 5 on `x`, the visitor is invoked on the zero-length record and `list`
returns that 5, the stop code of the visitor, not a decode error. -/
theorem C4_zero_length_counterexample :
    (linux_x86_64 64).d_reclen
        (fetch_buffer (linux_x86_64 64) zero_length_entries.reads
          (Buffer.new (linux_x86_64 64) 64) 0).bytes 24 = 0 ∧
      (∀ fuel, Directory.list (linux_x86_64 64) scripted keep_going ⟨3⟩ 77 fuel
        zero_length_entries = none) ∧
      Directory.list (linux_x86_64 64) scripted (stop_at (cstr "x") 5) ⟨3⟩ 77 10
        zero_length_entries =
        some ⟨5, ⟨3, [], 0⟩,
          [Event.buffer_new 64, Event.sys_getdents 3 0 64 48, Event.buffer_resize 128,
            Event.sys_getdents 3 48 80 0, Event.proc 0 (cstr "a") 0,
            Event.proc 24 (cstr "x") 5, Event.buffer_free]⟩ := by
  refine ⟨by decide, ?_, by decide⟩
  intro fuel
  exact list_stuck (linux_x86_64 64) scripted keep_going ⟨3⟩ 77 zero_length_entries ⟨3, [], 0⟩ 2
    (fetch_buffer (linux_x86_64 64) zero_length_entries.reads (Buffer.new (linux_x86_64 64) 64) 0)
    48 (fetch_events 3 0 zero_length_entries.reads 64 0) [(24, cstr "a")]
    (by decide) ⟨by decide, by decide, trivial⟩ ⟨by decide, trivial⟩ (by decide) (by decide)
    (fun _ _ => rfl) fuel

/-- C4, as the code has it: when the filled byte range holds valid records and
then, below the filled-byte count, a record of declared length 0, `list`
produces no decode error.  The visitor is invoked for each valid record that
precedes the zero-length record and then for the zero-length record itself,
again and again while it answers 0, because the cursor does not advance; once
it answers a nonzero code `c` there (after `k` answers of 0), `list` returns
`c`, and nothing behind the zero-length record has been visited. -/
theorem C4_list_revisits_zero_length_record {σ : Type} (T : Target) (sys : Syscall σ)
    (proc : σ → List Byte → Int × σ) (dir : Directory) (uninit : Int) (w w1 : σ) (f0 : Nat)
    (buffer : Buffer) (read_size : Nat) (tr : List Event) (rs : List (Nat × List Byte))
    (k : Nat) (c : Int)
    (hfetch : list_fetch T sys dir.fd f0 (Buffer.new T T.PAGE_SIZE) 0 w =
      some ⟨Fetch.filled buffer read_size, w1, tr⟩)
    (hrec : Records T buffer.bytes 0 rs) (hpos : ∀ r ∈ rs, 0 < r.1)
    (hin : span rs < read_size) (hzero : T.d_reclen buffer.bytes (span rs) = 0)
    (hcont : Continues proc w1
      (rs.map Prod.snd ++ List.replicate k (dirent_name T buffer.bytes (span rs))))
    (hc : (proc (after proc w1
        (rs.map Prod.snd ++ List.replicate k (dirent_name T buffer.bytes (span rs))))
      (dirent_name T buffer.bytes (span rs))).1 = c) (hne : c ≠ 0)
    (fuel : Nat) (hf0 : f0 ≤ fuel) (hfuel : rs.length + k + 1 < fuel) :
    ∃ r, dir.list T sys proc uninit fuel w = some r ∧ r.val = c ∧
      r.trace = Event.buffer_new T.PAGE_SIZE :: tr ++ visits 0 rs ++
        List.replicate k (Event.proc (span rs) (dirent_name T buffer.bytes (span rs)) 0) ++
        [Event.proc (span rs) (dirent_name T buffer.bytes (span rs)) c, Event.buffer_free] ∧
      visited r.trace =
        rs.map Prod.snd ++ List.replicate (k + 1) (dirent_name T buffer.bytes (span rs)) := by
  obtain ⟨z1, z2, z3, z4⟩ :=
    records_replicate_zero T buffer.bytes read_size (span rs) hin hzero k
  have hst : Starts read_size 0 rs := starts_of_pos read_size rs 0 hpos (by omega)
  have hrec2 : Records T buffer.bytes 0
      (rs ++ List.replicate k (0, dirent_name T buffer.bytes (span rs))) :=
    (records_append T buffer.bytes _ _ 0).2 ⟨hrec, by rw [Nat.zero_add]; exact z1⟩
  have hst2 : Starts read_size 0
      (rs ++ List.replicate k (0, dirent_name T buffer.bytes (span rs))) :=
    (starts_append_iff read_size _ _ 0).2 ⟨hst, by rw [Nat.zero_add]; exact z2⟩
  have hspan : span (rs ++ List.replicate k (0, dirent_name T buffer.bytes (span rs))) =
      span rs := by rw [span_append, z3, Nat.add_zero]
  have hmap : (rs ++ List.replicate k (0, dirent_name T buffer.bytes (span rs))).map Prod.snd =
      rs.map Prod.snd ++ List.replicate k (dirent_name T buffer.bytes (span rs)) := by
    simp
  have hlist := list_last_visit T sys proc dir uninit w w1 f0 buffer read_size tr
    (rs ++ List.replicate k (0, dirent_name T buffer.bytes (span rs))) hfetch hrec2 hst2
    (by rw [hspan]; exact hin) (by rw [hmap]; exact hcont)
    (Or.inl (by rw [hmap, hspan, hc]; exact hne)) fuel hf0 (by simp; omega)
  rw [hmap, hspan, hc, visits_append, Nat.zero_add, z4] at hlist
  have hnames := visited_last_visit T.PAGE_SIZE tr
    (list_fetch_filled_trace T sys dir.fd f0 _ _ _ _ _ _ _ hfetch)
    (rs ++ List.replicate k (0, dirent_name T buffer.bytes (span rs))) (span rs)
    (dirent_name T buffer.bytes (span rs)) c
  rw [visits_append, Nat.zero_add, z4, hmap] at hnames
  refine ⟨_, hlist, rfl, by simp, ?_⟩
  simp only [List.append_assoc] at hnames ⊢
  rw [hnames, List.replicate_succ']

/-- C4 as the code has it, on the 48 filled bytes of `zero_length_entries`
with a visitor that answers 0 twice and 5 from then on: the visitor sees `a`,
then the zero-length record `x` twice, and `list` returns 5. -/
theorem C4_list_revisits_zero_length_record_witness :
    ∃ r, Directory.list (linux_x86_64 64) scripted (stop_after 2 5) ⟨3⟩ 77 10
        zero_length_entries = some r ∧
      r.val = 5 ∧ visited r.trace = [cstr "a", cstr "x", cstr "x"] := by
  obtain ⟨r, h1, h2, _, h4⟩ :=
    C4_list_revisits_zero_length_record (linux_x86_64 64) scripted (stop_after 2 5) ⟨3⟩ 77
      zero_length_entries ⟨3, [], 0⟩ 2
      (fetch_buffer (linux_x86_64 64) zero_length_entries.reads
        (Buffer.new (linux_x86_64 64) 64) 0)
      48 (fetch_events 3 0 zero_length_entries.reads 64 0) [(24, cstr "a")] 1 5
      (by decide) ⟨by decide, by decide, trivial⟩ (by decide) (by decide) (by decide)
      ⟨by decide, by decide, trivial⟩ (by decide) (by decide) 10 (by decide) (by decide)
  exact ⟨r, h1, h2, h4⟩

/-- C10, refuted on a filled range of 24 bytes whose only record, at offset
0, declares the length 100: the visitor is invoked with the name `x` of that
record, and `list` returns 0. -/
theorem C10_overlong_counterexample :
    (linux_x86_64 64).d_reclen
        (fetch_buffer (linux_x86_64 64) overlong_entries.reads
          (Buffer.new (linux_x86_64 64) 64) 0).bytes 0 = 100 ∧
      24 < 0 + 100 ∧
      Directory.list (linux_x86_64 64) scripted keep_going ⟨3⟩ 77 10 overlong_entries =
        some ⟨0, ⟨3, [], 0⟩,
          [Event.buffer_new 64, Event.sys_getdents 3 0 64 24, Event.buffer_resize 128,
            Event.sys_getdents 3 24 104 0, Event.proc 0 (cstr "x") 0, Event.buffer_free]⟩ := by
  refine ⟨by decide, by decide, by decide⟩

/-- C10, as the code has it: no record is checked against the filled-byte
count.  When valid records on which the visitor answers 0 are followed by a
record that starts below the filled-byte count and declares a length that
reaches beyond it, the visitor is invoked with the name of that record too;
it is the last invocation, and `list` returns what the visitor answered to it
(so 0 when the visitor answered 0). -/
theorem C10_list_trusts_overlong_record {σ : Type} (T : Target) (sys : Syscall σ)
    (proc : σ → List Byte → Int × σ) (dir : Directory) (uninit : Int) (w w1 : σ) (f0 : Nat)
    (buffer : Buffer) (read_size : Nat) (tr : List Event) (rs : List (Nat × List Byte))
    (hfetch : list_fetch T sys dir.fd f0 (Buffer.new T T.PAGE_SIZE) 0 w =
      some ⟨Fetch.filled buffer read_size, w1, tr⟩)
    (hrec : Records T buffer.bytes 0 rs) (hpos : ∀ r ∈ rs, 0 < r.1)
    (hin : span rs < read_size)
    (hover : read_size < span rs + T.d_reclen buffer.bytes (span rs))
    (hcont : Continues proc w1 (rs.map Prod.snd))
    (fuel : Nat) (hf0 : f0 ≤ fuel) (hfuel : rs.length + 1 < fuel) :
    ∃ r, dir.list T sys proc uninit fuel w = some r ∧
      r.val = (proc (after proc w1 (rs.map Prod.snd))
        (dirent_name T buffer.bytes (span rs))).1 ∧
      r.trace = Event.buffer_new T.PAGE_SIZE :: tr ++ visits 0 rs ++
        [Event.proc (span rs) (dirent_name T buffer.bytes (span rs))
          (proc (after proc w1 (rs.map Prod.snd)) (dirent_name T buffer.bytes (span rs))).1,
         Event.buffer_free] ∧
      visited r.trace = rs.map Prod.snd ++ [dirent_name T buffer.bytes (span rs)] := by
  have hst : Starts read_size 0 rs := starts_of_pos read_size rs 0 hpos (by omega)
  have hlist := list_last_visit T sys proc dir uninit w w1 f0 buffer read_size tr rs hfetch hrec
    hst hin hcont (Or.inr (by omega)) fuel hf0 hfuel
  have hnames := visited_last_visit T.PAGE_SIZE tr
    (list_fetch_filled_trace T sys dir.fd f0 _ _ _ _ _ _ _ hfetch) rs (span rs)
    (dirent_name T buffer.bytes (span rs))
    (proc (after proc w1 (rs.map Prod.snd)) (dirent_name T buffer.bytes (span rs))).1
  exact ⟨_, hlist, rfl, rfl, hnames⟩

/-- C10 as the code has it, on the 24 filled bytes of `overlong_entries`: the
name `x` of the record that declares 100 bytes is visited and `list`
returns 0. -/
theorem C10_list_trusts_overlong_record_witness :
    ∃ r, Directory.list (linux_x86_64 64) scripted keep_going ⟨3⟩ 77 10 overlong_entries =
        some r ∧ r.val = 0 ∧ visited r.trace = [cstr "x"] := by
  obtain ⟨r, h1, h2, _, h4⟩ :=
    C10_list_trusts_overlong_record (linux_x86_64 64) scripted keep_going ⟨3⟩ 77
      overlong_entries ⟨3, [], 0⟩ 2
      (fetch_buffer (linux_x86_64 64) overlong_entries.reads (Buffer.new (linux_x86_64 64) 64) 0)
      24 (fetch_events 3 0 overlong_entries.reads 64 0) []
      (by decide) trivial (by decide) (by decide) (by decide) trivial 10 (by decide) (by decide)
  exact ⟨r, h1, h2, h4⟩

/-! ## The claims about the read loop -/

theorem serves_pos {σ : Type} (sys : Syscall σ) (fd : Int) (last : Int) (w1 : σ) :
    ∀ (xs : List (Int × List Byte)) (size read : Nat) (w : σ),
      Serves sys fd last w1 xs size read w → ∀ x ∈ xs, 0 < x.1 := by
  intro xs
  induction xs with
  | nil => intro size read w _ x hx; simp at hx
  | cons y ys ih =>
    intro size read w h x hx
    obtain ⟨_, hpos, hrest⟩ := h
    simp only [List.mem_cons] at hx
    rcases hx with rfl | hx
    · exact hpos
    · exact ih _ _ _ hrest x hx

theorem total_cast (xs : List (Int × List Byte)) (hpos : ∀ x ∈ xs, 0 < x.1) :
    ((total xs : Nat) : Int) = (xs.map Prod.fst).sum := by
  induction xs with
  | nil => simp [total]
  | cons y ys ih =>
    have hy : 0 < y.1 := hpos y (List.mem_cons_self _ _)
    have ih1 := ih (fun x hx => hpos x (List.mem_cons_of_mem _ hx))
    simp only [total, List.map_cons, List.sum_cons, Nat.cast_add] at ih1 ⊢
    rw [ih1, Int.toNat_of_nonneg (by omega)]

theorem chunks_length : ∀ (xs : List (Int × List Byte)) (size read : Nat), Fits xs size read →
    (chunks xs).map List.length = xs.map fun x => x.1.toNat := by
  intro xs
  induction xs with
  | nil => intro size read _; rfl
  | cons y ys ih =>
    intro size read h
    obtain ⟨_, hdata, hrest⟩ := h
    have ih1 := ih _ _ hrest
    simp only [chunks] at ih1
    simp only [chunks, List.map_cons, List.length_take, ih1, Nat.min_eq_left hdata]

/-- The events of the read loop are read requests and resizes, and the last
of them is the request that was answered with `last`. -/
theorem fetch_events_shape (fd : Int) (last : Int) :
    ∀ (xs : List (Int × List Byte)) (size read : Nat),
      ∃ pre d n, fetch_events fd last xs size read = pre ++ [Event.sys_getdents fd d n last] ∧
        ∀ e ∈ pre, e.is_fetch = true := by
  intro xs
  induction xs with
  | nil => intro size read; exact ⟨[], read, size - read, rfl, by simp⟩
  | cons y ys ih =>
    intro size read
    obtain ⟨pre, d, n, hpre, hall⟩ := ih (size * 2) (read + y.1.toNat)
    refine ⟨Event.sys_getdents fd read (size - read) y.1 :: Event.buffer_resize (size * 2) :: pre,
      d, n, by simp [fetch_events, hpre], ?_⟩
    intro e he
    simp only [List.mem_cons] at he
    rcases he with rfl | rfl | he
    · rfl
    · rfl
    · exact hall e he

/-- C5: when the gateway answers the successive requests of the read loop of
`Directory::list` with the positive results `xs` and then with 0, each result
not exceeding the capacity requested by its call, the loop is left with a
filled-byte count equal to the sum of the results, and the bytes below that
count are the chunks the gateway wrote, concatenated in the order of the
calls, the capacity having doubled once per chunk. -/
theorem C5_read_loop_accumulates {σ : Type} (T : Target) (sys : Syscall σ) (fd : Int)
    (w w1 : σ) (xs : List (Int × List Byte))
    (hserves : Serves sys fd 0 w1 xs T.PAGE_SIZE 0 w) (hfits : Fits xs T.PAGE_SIZE 0)
    (fuel : Nat) (hfuel : xs.length < fuel) :
    ∃ buffer read_size tr,
      list_fetch T sys fd fuel (Buffer.new T T.PAGE_SIZE) 0 w =
        some ⟨Fetch.filled buffer read_size, w1, tr⟩ ∧
      (read_size : Int) = (xs.map Prod.fst).sum ∧
      buffer.bytes.take read_size = (chunks xs).flatten ∧
      (chunks xs).map List.length = xs.map (fun x => x.1.toNat) ∧
      buffer.size = T.PAGE_SIZE * 2 ^ xs.length := by
  obtain ⟨k, rfl⟩ : ∃ k, fuel = k + xs.length + 1 := ⟨fuel - xs.length - 1, by omega⟩
  have hs : Serves sys fd 0 w1 xs (Buffer.new T T.PAGE_SIZE).size 0 w := by
    rw [Buffer.size_new]; exact hserves
  have hf : Fits xs (Buffer.new T T.PAGE_SIZE).size 0 := by
    rw [Buffer.size_new]; exact hfits
  have hrun := list_fetch_serves_zero T sys fd w1 xs k (Buffer.new T T.PAGE_SIZE) 0 w hs
  obtain ⟨hsize, hbytes⟩ := fetch_buffer_spec T xs (Buffer.new T T.PAGE_SIZE) 0 hf (Nat.zero_le _)
  rw [Nat.zero_add] at hrun hbytes
  refine ⟨_, _, _, hrun, total_cast xs (serves_pos sys fd 0 w1 xs _ _ _ hserves), ?_,
    chunks_length xs _ _ hfits, ?_⟩
  · rw [hbytes]
    simp
  · rw [hsize, Buffer.size_new]

/-- C5, on the directory that hands out its four records in two reads of 48
bytes: the loop is left with 96 filled bytes, which are the bytes of the four
records in order, in a buffer that has doubled twice. -/
theorem C5_read_loop_accumulates_witness :
    ∃ buffer read_size tr,
      list_fetch (linux_x86_64 64) scripted 3 10 (Buffer.new (linux_x86_64 64) 64) 0
        four_entries = some ⟨Fetch.filled buffer read_size, ⟨3, [], 0⟩, tr⟩ ∧
      (read_size : Int) = 48 + 48 ∧ buffer.bytes.take read_size = four_dirents ∧
      buffer.size = 256 := by
  obtain ⟨buffer, read_size, tr, h1, h2, h3, _, h5⟩ :=
    C5_read_loop_accumulates (linux_x86_64 64) scripted 3 four_entries ⟨3, [], 0⟩
      four_entries.reads ⟨by decide, by decide, by decide, by decide, by decide, by decide⟩
      ⟨by decide, by decide, by decide, by decide, trivial⟩ 10 (by decide)
  refine ⟨buffer, read_size, tr, h1, ?_, ?_, ?_⟩
  · rw [h2]; decide
  · rw [h3]; decide
  · rw [h5]; decide

/-- C6: when a `getdents` call made by `Directory::list` returns a negative
value `e`, after any number of positive results `xs`, `list` returns exactly
`e`; the failing request is the last one made, only the release of the buffer
follows it, and the visitor is never invoked. -/
theorem C6_list_returns_negative_read_result {σ : Type} (T : Target) (sys : Syscall σ)
    (proc : σ → List Byte → Int × σ) (dir : Directory) (uninit : Int) (w w1 : σ)
    (xs : List (Int × List Byte)) (e : Int) (he : e < 0)
    (hserves : Serves sys dir.fd e w1 xs T.PAGE_SIZE 0 w)
    (fuel : Nat) (hfuel : xs.length < fuel) :
    ∃ r, dir.list T sys proc uninit fuel w = some r ∧ r.val = e ∧ r.world = w1 ∧
      r.trace = Event.buffer_new T.PAGE_SIZE :: fetch_events dir.fd e xs T.PAGE_SIZE 0 ++
        [Event.buffer_free] ∧
      (∃ pre d n, r.trace = Event.buffer_new T.PAGE_SIZE :: pre ++
        [Event.sys_getdents dir.fd d n e, Event.buffer_free] ∧ ∀ x ∈ pre, x.is_fetch = true) ∧
      visited r.trace = [] := by
  have hs : Serves sys dir.fd e w1 xs (Buffer.new T T.PAGE_SIZE).size 0 w := by
    rw [Buffer.size_new]; exact hserves
  have hrun := list_fetch_serves_neg T sys dir.fd e he w1 xs 0 (Buffer.new T T.PAGE_SIZE) 0 w hs
  rw [Buffer.size_new] at hrun
  have hlist := list_of_failed T sys proc dir uninit w w1 (0 + xs.length + 1) e _ hrun fuel
    (by omega)
  obtain ⟨pre, d, n, hpre, hall⟩ := fetch_events_shape dir.fd e xs T.PAGE_SIZE 0
  obtain ⟨hv, _, _, _⟩ := visited_of_fetch pre hall
  refine ⟨_, hlist, rfl, rfl, by simp, ⟨pre, d, n, by simp [hpre], hall⟩, ?_⟩
  simp [hpre, visited, visited_append, hv]

/-- C6, on the directory whose second read fails with -5 after a first read of
two records: `list` returns -5 without a single visit. -/
theorem C6_list_returns_negative_read_result_witness :
    ∃ r, Directory.list (linux_x86_64 64) scripted keep_going ⟨3⟩ 77 10 failing_entries =
        some r ∧ r.val = -5 ∧ visited r.trace = [] ∧
      r.trace = [Event.buffer_new 64, Event.sys_getdents 3 0 64 48, Event.buffer_resize 128,
        Event.sys_getdents 3 48 80 (-5), Event.buffer_free] := by
  obtain ⟨r, h1, h2, _, h4, _, h6⟩ :=
    C6_list_returns_negative_read_result (linux_x86_64 64) scripted keep_going ⟨3⟩ 77
      failing_entries ⟨3, [], 0⟩ [(48, four_dirents.take 48)] (-5) (by decide)
      ⟨by decide, by decide, by decide, by decide⟩ 10 (by decide)
  exact ⟨r, h1, h2, h6, by rw [h4]; decide⟩

/-! ## The claims about resources -/

/-- The events of a run of `list`: the acquisition of the buffer, then read
requests, resizes and visits, then the release of the buffer. -/
theorem list_trace_shape {σ : Type} (T : Target) (sys : Syscall σ)
    (proc : σ → List Byte → Int × σ) (dir : Directory) (uninit : Int) (fuel : Nat) (w : σ)
    (r : Run σ Int) (h : dir.list T sys proc uninit fuel w = some r) :
    ∃ mid, r.trace = Event.buffer_new T.PAGE_SIZE :: mid ++ [Event.buffer_free] ∧
      ∀ e ∈ mid, e.is_fetch = true ∨ e.is_proc = true := by
  cases hf : list_fetch T sys dir.fd fuel (Buffer.new T T.PAGE_SIZE) 0 w with
  | none => simp [Directory.list, hf] at h
  | some k0 =>
    obtain ⟨pre, hpre, hcase⟩ := list_fetch_trace T sys dir.fd fuel _ _ _ _ hf
    obtain ⟨val, w1, tr⟩ := k0
    rcases hcase with ⟨b, n, hv, ht⟩ | ⟨c, hv, ht⟩
    · simp only at hv ht
      subst hv ht
      rw [list_of_filled T sys proc dir uninit w w1 fuel b n tr hf fuel (Nat.le_refl _),
        Option.map_eq_some'] at h
      obtain ⟨k, hk, hr⟩ := h
      obtain ⟨vs, hvs, hall⟩ := foreach_dirent_trace T proc b.bytes n fuel 0 _ k hk
      subst hr
      refine ⟨tr ++ vs, by simp [hvs], ?_⟩
      intro e he
      rcases List.mem_append.1 he with he | he
      · exact Or.inl (hpre e he)
      · exact Or.inr (hall e he)
    · simp only at hv ht
      subst hv ht
      rw [list_of_failed T sys proc dir uninit w w1 fuel c _ hf fuel (Nat.le_refl _)] at h
      simp only [Option.some.injEq] at h
      subst h
      exact ⟨pre, by simp, fun e he => Or.inl (hpre e he)⟩

theorem getLast_snoc (l : List Event) (x : Event) : (l ++ [x]).getLast? = some x := by
  simp

/-- Read requests, resizes and visits are neither closes nor releases of the
buffer. -/
theorem closed_of_work (tr : List Event)
    (h : ∀ e ∈ tr, e.is_fetch = true ∨ e.is_proc = true) :
    closed tr = [] ∧ Event.buffer_free ∉ tr := by
  induction tr with
  | nil => simp [closed]
  | cons e tr ih =>
    obtain ⟨h1, h2⟩ := ih (fun x hx => h x (List.mem_cons_of_mem _ hx))
    have he := h e (List.mem_cons_self _ _)
    cases e <;> simp_all [closed, Event.is_fetch, Event.is_proc]

/-- C7: when the open made by `Directory::each` yields a negative descriptor
`d`, `each` returns exactly `d`, with any fuel; the open is its only event:
the visitor is not invoked, no read request is made (`list` is not called)
and no close is attempted. -/
theorem C7_each_returns_open_failure {σ : Type} (T : Target) (sys : Syscall σ)
    (proc : σ → List Byte → Int × σ) (path : List Byte) (uninit : Int) (fuel : Nat) (w : σ)
    (hneg : (sys.open_ w path (T.O_RDONLY ||| T.O_DIRECTORY)).1 < 0) :
    ∃ r, Directory.each T sys proc path uninit fuel w = some r ∧
      r.val = (sys.open_ w path (T.O_RDONLY ||| T.O_DIRECTORY)).1 ∧
      r.world = (sys.open_ w path (T.O_RDONLY ||| T.O_DIRECTORY)).2 ∧
      r.trace = [Event.sys_open path (T.O_RDONLY ||| T.O_DIRECTORY)
        (sys.open_ w path (T.O_RDONLY ||| T.O_DIRECTORY)).1] ∧
      visited r.trace = [] ∧ closed r.trace = [] := by
  have h : Directory.each T sys proc path uninit fuel w =
      some ⟨(sys.open_ w path (T.O_RDONLY ||| T.O_DIRECTORY)).1,
        (sys.open_ w path (T.O_RDONLY ||| T.O_DIRECTORY)).2,
        [Event.sys_open path (T.O_RDONLY ||| T.O_DIRECTORY)
          (sys.open_ w path (T.O_RDONLY ||| T.O_DIRECTORY)).1]⟩ := by
    simp only [Directory.each, Directory.ctor, Directory.file_desc, if_pos hneg]
  exact ⟨_, h, rfl, rfl, rfl, rfl, rfl⟩

/-- C7, on a path that the scripted gateway fails to open with -2: `each`
returns -2 and has done nothing but the open. -/
theorem C7_each_returns_open_failure_witness :
    ∃ r, Directory.each (linux_x86_64 64) scripted keep_going (cstr "/nowhere") 77 10
        missing_entries = some r ∧
      r.val = -2 ∧ r.trace = [Event.sys_open (cstr "/nowhere") 65536 (-2)] ∧
      visited r.trace = [] ∧ closed r.trace = [] := by
  obtain ⟨r, h1, h2, _, h4, h5, h6⟩ :=
    C7_each_returns_open_failure (linux_x86_64 64) scripted keep_going (cstr "/nowhere") 77 10
      missing_entries (by decide)
  exact ⟨r, h1, h2, h4, h5, h6⟩

/-- C8: when the open made by `Directory::each` yields a non-negative
descriptor, `each` returns exactly when `list` on that descriptor returns, and
then with the very value `list` returned, whatever status the close reports;
the close of that descriptor is the last event, it follows every event of
`list`, and it is the only close. -/
theorem C8_each_closes_once_after_list {σ : Type} (T : Target) (sys : Syscall σ)
    (proc : σ → List Byte → Int × σ) (path : List Byte) (uninit : Int) (fuel : Nat) (w : σ)
    (hfd : 0 ≤ (sys.open_ w path (T.O_RDONLY ||| T.O_DIRECTORY)).1) :
    Directory.each T sys proc path uninit fuel w =
      (Directory.list T sys proc ⟨(sys.open_ w path (T.O_RDONLY ||| T.O_DIRECTORY)).1⟩ uninit
        fuel (sys.open_ w path (T.O_RDONLY ||| T.O_DIRECTORY)).2).map (fun r =>
        ⟨r.val, (sys.close r.world (sys.open_ w path (T.O_RDONLY ||| T.O_DIRECTORY)).1).2,
          Event.sys_open path (T.O_RDONLY ||| T.O_DIRECTORY)
            (sys.open_ w path (T.O_RDONLY ||| T.O_DIRECTORY)).1 :: r.trace ++
          [Event.dir_close (sys.open_ w path (T.O_RDONLY ||| T.O_DIRECTORY)).1
            (sys.close r.world (sys.open_ w path (T.O_RDONLY ||| T.O_DIRECTORY)).1).1]⟩) ∧
    ∀ k, Directory.each T sys proc path uninit fuel w = some k →
      closed k.trace = [(sys.open_ w path (T.O_RDONLY ||| T.O_DIRECTORY)).1] ∧
      ∃ status, k.trace.getLast? =
        some (Event.dir_close (sys.open_ w path (T.O_RDONLY ||| T.O_DIRECTORY)).1 status) := by
  have hnot : ¬ (sys.open_ w path (T.O_RDONLY ||| T.O_DIRECTORY)).1 < 0 := by omega
  have heq : Directory.each T sys proc path uninit fuel w =
      (Directory.list T sys proc ⟨(sys.open_ w path (T.O_RDONLY ||| T.O_DIRECTORY)).1⟩ uninit
        fuel (sys.open_ w path (T.O_RDONLY ||| T.O_DIRECTORY)).2).map (fun r =>
        ⟨r.val, (sys.close r.world (sys.open_ w path (T.O_RDONLY ||| T.O_DIRECTORY)).1).2,
          Event.sys_open path (T.O_RDONLY ||| T.O_DIRECTORY)
            (sys.open_ w path (T.O_RDONLY ||| T.O_DIRECTORY)).1 :: r.trace ++
          [Event.dir_close (sys.open_ w path (T.O_RDONLY ||| T.O_DIRECTORY)).1
            (sys.close r.world (sys.open_ w path (T.O_RDONLY ||| T.O_DIRECTORY)).1).1]⟩) := by
    simp only [Directory.each, Directory.ctor, Directory.file_desc, Directory.close,
      if_neg hnot]
    cases Directory.list T sys proc ⟨(sys.open_ w path (T.O_RDONLY ||| T.O_DIRECTORY)).1⟩
      uninit fuel (sys.open_ w path (T.O_RDONLY ||| T.O_DIRECTORY)).2 <;> rfl
  refine ⟨heq, ?_⟩
  intro k hk
  rw [heq, Option.map_eq_some'] at hk
  obtain ⟨r, hr, hkr⟩ := hk
  obtain ⟨mid, hmid, hall⟩ := list_trace_shape T sys proc _ uninit fuel _ r hr
  obtain ⟨hc, _⟩ := closed_of_work mid hall
  subst hkr
  refine ⟨?_, (sys.close r.world (sys.open_ w path (T.O_RDONLY ||| T.O_DIRECTORY)).1).1, ?_⟩
  · simp [hmid, closed, closed_append, hc]
  · exact getLast_snoc _ _

/-- C8, on the directory with the four entries and a visitor that stops at
`a.txt` with 1: `each` returns the 1 of `list`, and descriptor 3 is closed
once, as the last event. -/
theorem C8_each_closes_once_after_list_witness :
    ∃ k, Directory.each (linux_x86_64 64) scripted (stop_at (cstr "a.txt") 1) (cstr "/tmp") 77 10
        four_entries = some k ∧
      k.val = 1 ∧ closed k.trace = [3] ∧ k.trace.getLast? = some (Event.dir_close 3 0) := by
  obtain ⟨h1, h2⟩ :=
    C8_each_closes_once_after_list (linux_x86_64 64) scripted (stop_at (cstr "a.txt") 1)
      (cstr "/tmp") 77 10 four_entries (by decide)
  have hk : Directory.each (linux_x86_64 64) scripted (stop_at (cstr "a.txt") 1) (cstr "/tmp")
      77 10 four_entries =
      some ⟨1, ⟨3, [], 0⟩,
        [Event.sys_open (cstr "/tmp") 65536 3, Event.buffer_new 64,
          Event.sys_getdents 3 0 64 48, Event.buffer_resize 128, Event.sys_getdents 3 48 80 48,
          Event.buffer_resize 256, Event.sys_getdents 3 96 160 0, Event.proc 0 (cstr ".") 0,
          Event.proc 24 (cstr "..") 0, Event.proc 48 (cstr "a.txt") 1, Event.buffer_free,
          Event.dir_close 3 0]⟩ := by
    rw [h1]; decide
  exact ⟨_, hk, rfl, (h2 _ hk).1, by decide⟩

/-- C9: on every run of `Directory::list` that returns (normal completion,
negative read result or early stop), the events are the acquisition of the
buffer, then read requests, resizes and visitor invocations only, then the
release of the buffer: the buffer is freed exactly once, as the last event
before `list` returns. -/
theorem C9_list_frees_buffer_once {σ : Type} (T : Target) (sys : Syscall σ)
    (proc : σ → List Byte → Int × σ) (dir : Directory) (uninit : Int) (fuel : Nat) (w : σ)
    (r : Run σ Int) (h : dir.list T sys proc uninit fuel w = some r) :
    (∃ mid, r.trace = Event.buffer_new T.PAGE_SIZE :: mid ++ [Event.buffer_free] ∧
      ∀ e ∈ mid, e.is_fetch = true ∨ e.is_proc = true) ∧
    r.trace.count Event.buffer_free = 1 ∧
    r.trace.getLast? = some Event.buffer_free := by
  obtain ⟨mid, hmid, hall⟩ := list_trace_shape T sys proc dir uninit fuel w r h
  obtain ⟨_, hfree⟩ := closed_of_work mid hall
  refine ⟨⟨mid, hmid, hall⟩, ?_, ?_⟩
  · rw [hmid, List.cons_append, List.count_cons, List.count_append,
      List.count_eq_zero_of_not_mem hfree]
    simp
  · rw [hmid]
    exact getLast_snoc _ _

/-- C9, on the three ways `list` returns with the scripted gateway: after
visiting all four entries, after a read that failed with -5, and after the
visitor stopped at `a.txt`; each time exactly one release, as the last
event. -/
theorem C9_list_frees_buffer_once_witness :
    (∃ r, Directory.list (linux_x86_64 64) scripted keep_going ⟨3⟩ 77 10 four_entries = some r ∧
      r.val = 0 ∧ r.trace.count Event.buffer_free = 1 ∧
      r.trace.getLast? = some Event.buffer_free) ∧
    (∃ r, Directory.list (linux_x86_64 64) scripted keep_going ⟨3⟩ 77 10 failing_entries =
        some r ∧
      r.val = -5 ∧ r.trace.count Event.buffer_free = 1 ∧
      r.trace.getLast? = some Event.buffer_free) ∧
    (∃ r, Directory.list (linux_x86_64 64) scripted (stop_at (cstr "a.txt") 1) ⟨3⟩ 77 10
        four_entries = some r ∧
      r.val = 1 ∧ r.trace.count Event.buffer_free = 1 ∧
      r.trace.getLast? = some Event.buffer_free) := by
  have e1 : Directory.list (linux_x86_64 64) scripted keep_going ⟨3⟩ 77 10 four_entries =
      some ⟨0, ⟨3, [], 0⟩,
        [Event.buffer_new 64, Event.sys_getdents 3 0 64 48, Event.buffer_resize 128,
          Event.sys_getdents 3 48 80 48, Event.buffer_resize 256, Event.sys_getdents 3 96 160 0,
          Event.proc 0 (cstr ".") 0, Event.proc 24 (cstr "..") 0,
          Event.proc 48 (cstr "a.txt") 0, Event.proc 72 (cstr "b.txt") 0,
          Event.buffer_free]⟩ := by decide
  have e2 : Directory.list (linux_x86_64 64) scripted keep_going ⟨3⟩ 77 10 failing_entries =
      some ⟨-5, ⟨3, [], 0⟩,
        [Event.buffer_new 64, Event.sys_getdents 3 0 64 48, Event.buffer_resize 128,
          Event.sys_getdents 3 48 80 (-5), Event.buffer_free]⟩ := by decide
  have e3 : Directory.list (linux_x86_64 64) scripted (stop_at (cstr "a.txt") 1) ⟨3⟩ 77 10
      four_entries =
      some ⟨1, ⟨3, [], 0⟩,
        [Event.buffer_new 64, Event.sys_getdents 3 0 64 48, Event.buffer_resize 128,
          Event.sys_getdents 3 48 80 48, Event.buffer_resize 256, Event.sys_getdents 3 96 160 0,
          Event.proc 0 (cstr ".") 0, Event.proc 24 (cstr "..") 0,
          Event.proc 48 (cstr "a.txt") 1, Event.buffer_free]⟩ := by decide
  have c1 := C9_list_frees_buffer_once (linux_x86_64 64) scripted keep_going ⟨3⟩ 77 10
    four_entries _ e1
  have c2 := C9_list_frees_buffer_once (linux_x86_64 64) scripted keep_going ⟨3⟩ 77 10
    failing_entries _ e2
  have c3 := C9_list_frees_buffer_once (linux_x86_64 64) scripted (stop_at (cstr "a.txt") 1)
    ⟨3⟩ 77 10 four_entries _ e3
  exact ⟨⟨_, e1, rfl, c1.2.1, c1.2.2⟩, ⟨_, e2, rfl, c2.2.1, c2.2.2⟩,
    ⟨_, e3, rfl, c3.2.1, c3.2.2⟩⟩

end Filesystem
end Pico
